import Mathlib

/-!
Shallow embedding of the buildarr-sonarr quality configuration subsystem
(`src/buildarr_sonarr/config/quality.py` and
`src/buildarr_sonarr/config/profiles/quality.py`).

Modelling conventions:
* Python `float` sizes are modelled as `ℚ` (the validators only compare and
  subtract; all values of interest are exact).
* Python `Mapping`/`dict` values are modelled as association lists
  (`List (key × value)`) looked up with `List.lookup`; dictionaries built by
  the program have unique keys, which theorems carry as `Nodup` hypotheses
  where it matters.
* Python `set` values are modelled as `List`s; construction of a set from an
  iterable is modelled with `List.dedup` (element order of a Python set is
  unspecified, so a canonical representative list is used), and set
  membership with list membership.
* A fallible operation (`KeyError`, `TypeError`, `IndexError`) is modelled
  with `Option`/`Except`: `none`/`.error` is the raised exception.
* A pydantic validator that raises `ValueError` is modelled as a function
  into `Except ε`.  A field that is absent from `info.data`/`values` because
  it failed its own validation is modelled as an outer `Option` layer on the
  corresponding argument.
-/

namespace BuildarrSonarr

/-! ## Quality definitions (`config/quality.py`) -/

/-- `QUALITYDEFINITION_PREFERRED_MAX = 1000` (config/quality.py line 35). -/
def QUALITYDEFINITION_PREFERRED_MAX : ℚ := 1000

/-- `QUALITYDEFINITION_MAX = 1000` (config/quality.py line 36). -/
def QUALITYDEFINITION_MAX : ℚ := 1000

/-- Errors raised by the `QualityDefinition` validators.  The source raises
`ValueError` with an interpolated message; the constructor arguments carry
the interpolated numbers. -/
inductive QualityDefErr
  /-- `'preferred' ({value}) is not at least 1 greater than 'min' ({quality_min})` -/
  | preferredNotGreater (value quality_min : ℚ)
  /-- `'max' ({value}) is not at least 1 greater than 'preferred' ({quality_preferred})` -/
  | maxNotGreater (value quality_preferred : ℚ)
deriving DecidableEq, Repr

/-- `QualityDefinition.validate_preferred` (config/quality.py lines 82-100).
`minEntry` is `values["min"]`: `none` models the `KeyError` case where `min`
failed its own validation. -/
def validate_preferred (value : Option ℚ) (minEntry : Option ℚ) :
    Except QualityDefErr (Option ℚ) :=
  match value with
  | none => .ok none
  | some v =>
    if QUALITYDEFINITION_PREFERRED_MAX ≤ v then .ok none
    else
      match minEntry with
      | none => .ok (some v)   -- KeyError: skip the check that uses `min`
      | some quality_min =>
        if v - quality_min < 1 then .error (.preferredNotGreater v quality_min)
        else .ok (some v)

/-- `QualityDefinition.validate_max` (config/quality.py lines 102-124).
`preferredEntry` is `values["preferred"]`: the outer `Option` is key
presence (`none` models the `KeyError`), the inner `Option` is the stored
value (`none` models a stored Python `None`, whose `float(...)` raises
`TypeError`, caught and replaced by `QUALITYDEFINITION_PREFERRED_MAX`). -/
def validate_max (value : Option ℚ) (preferredEntry : Option (Option ℚ)) :
    Except QualityDefErr (Option ℚ) :=
  match value with
  | none => .ok none
  | some v =>
    if QUALITYDEFINITION_MAX ≤ v then .ok none
    else
      match preferredEntry with
      | none => .ok (some v)   -- KeyError: skip the check that uses `preferred`
      | some preferred =>
        let quality_preferred : ℚ := preferred.getD QUALITYDEFINITION_PREFERRED_MAX
        if v - quality_preferred < 1 then .error (.maxNotGreater v quality_preferred)
        else .ok (some v)

/-! ## Quality profiles: data model (`config/profiles/quality.py`) -/

/-- `QualityGroup` (config/profiles/quality.py lines 38-56).  `members` is a
Python `set` of quality names, modelled as its element list (no duplicates
in any set the program builds). -/
structure QualityGroup where
  name : String
  members : List String
deriving DecidableEq, Repr

/-- One element of `QualityProfile.qualities`:
`Union[NonEmptyStr, QualityGroup]`. -/
inductive QualityEntry
  | bare (name : String)
  | group (g : QualityGroup)
deriving DecidableEq, Repr

/-- The quality names contributed by one entry of `qualities`: the group's
members for a group, the name itself for a bare quality
(config/profiles/quality.py line 198). -/
def entryNames : QualityEntry → List String
  | .bare n => [n]
  | .group g => g.members

/-- The display name of one entry of `qualities`: the group name for a
group, the name itself for a bare quality
(config/profiles/quality.py line 242). -/
def entryName : QualityEntry → String
  | .bare n => n
  | .group g => g.name

/-- `True` for a bare (non-grouped) quality value, i.e. the Python
`isinstance(quality, str)` test. -/
def QualityEntry.isStr : QualityEntry → Bool
  | .bare _ => true
  | .group _ => false

/-- `CustomFormatScore` (config/profiles/quality.py lines 59-80). -/
structure CustomFormatScore where
  name : String
  score : Option Int
deriving DecidableEq, Repr

/-- The validated fields of `QualityProfile`
(config/profiles/quality.py lines 83-188). -/
structure QualityProfile where
  upgrades_allowed : Bool
  qualities : List QualityEntry
  minimum_custom_format_score : Int
  upgrade_until_custom_format_score : Int
  minimum_custom_format_score_increment : Int
  custom_formats : List CustomFormatScore
  upgrade_until : Option String
deriving DecidableEq, Repr

/-! ## `QualityProfile.validate_upgrade_until` (lines 220-247) -/

/-- `QualityProfile.validate_upgrade_until` (config/profiles/quality.py
lines 220-247).  `upgradesAllowed?` and `qualities?` are
`info.data["upgrades_allowed"]` and `info.data["qualities"]`; `none` models
the `KeyError` taken when the field failed its own prior validation, in
which case the validator returns its input unchanged. -/
def validate_upgrade_until (value : Option String)
    (upgradesAllowed? : Option Bool) (qualities? : Option (List QualityEntry)) :
    Except String (Option String) :=
  match upgradesAllowed?, qualities? with
  | some upgrades_allowed, some qualities =>
    if !upgrades_allowed then .ok none
    else
      match value with
      | none => .error "required if 'upgrades_allowed' is True"
      | some v =>
        if qualities.any (fun quality => v = entryName quality) then .ok (some v)
        else .error "must be set to a value enabled in 'qualities'"
  | _, _ => .ok value

end BuildarrSonarr

namespace BuildarrSonarr

/-! ## Claim C5 — the docstring example `min=2, preferred=None, max=100` -/

/-- C5: constructing a `QualityDefinition` with `min=2`, `preferred=None`,
`max=100` does NOT succeed: `preferred` does normalize to `None`, but
`validate_max` then treats the absent `preferred` as 1000 and rejects
`max=100` because `100 - 1000 < 1`.  This contradicts the module's own
docstring example (config/quality.py lines 134-145), so the code, not the
claim, is at fault; this theorem evaluates the embedded validators at the
failing input. -/
theorem c5_definition_rejected :
    validate_preferred none (some 2) = .ok none ∧
      validate_max (some 100) (some none) = .error (.maxNotGreater 100 1000) := by
  constructor
  · rfl
  · norm_num [validate_max, QUALITYDEFINITION_MAX, QUALITYDEFINITION_PREFERRED_MAX]

/-! ## Claim C6 — behaviour of `validate_max` -/

/-- C6: `validate_max` normalizes an absent or ≥ 1000 `max` to absent;
otherwise it requires `max - preferred ≥ 1` where a present-but-`None`
`preferred` is treated as 1000, and it skips the check entirely when the
`preferred` key is missing from the validated data. -/
theorem c6_validate_max_behavior :
    (∀ preferredEntry, validate_max none preferredEntry = .ok none) ∧
    (∀ (v : ℚ) preferredEntry, 1000 ≤ v →
      validate_max (some v) preferredEntry = .ok none) ∧
    (∀ (v : ℚ), v < 1000 → validate_max (some v) none = .ok (some v)) ∧
    (∀ (v : ℚ) (p : Option ℚ), v < 1000 → 1 ≤ v - p.getD 1000 →
      validate_max (some v) (some p) = .ok (some v)) ∧
    (∀ (v : ℚ) (p : Option ℚ), v < 1000 → v - p.getD 1000 < 1 →
      validate_max (some v) (some p) = .error (.maxNotGreater v (p.getD 1000))) := by
  refine ⟨fun _ => rfl, fun v pe hv => ?_, fun v hv => ?_, fun v p hv hp => ?_,
    fun v p hv hp => ?_⟩
  · simp [validate_max, QUALITYDEFINITION_MAX, hv]
  · simp [validate_max, QUALITYDEFINITION_MAX, not_le.mpr hv]
  · simp [validate_max, QUALITYDEFINITION_MAX, QUALITYDEFINITION_PREFERRED_MAX,
      not_le.mpr hv, not_lt.mpr hp]
  · simp [validate_max, QUALITYDEFINITION_MAX, QUALITYDEFINITION_PREFERRED_MAX,
      not_le.mpr hv, hp]

/-- Witness for C6: each hypothesised branch of `c6_validate_max_behavior`
instantiated at concrete inputs. -/
theorem c6_validate_max_behavior_witness :
    (validate_max none (some (some 5)) = .ok none) ∧
    ((1000 : ℚ) ≤ 1200 ∧ validate_max (some 1200) none = .ok none) ∧
    ((500 : ℚ) < 1000 ∧ validate_max (some 500) none = .ok (some 500)) ∧
    ((500 : ℚ) < 1000 ∧ (1 : ℚ) ≤ 500 - (some (400 : ℚ)).getD 1000 ∧
      validate_max (some 500) (some (some 400)) = .ok (some 500)) ∧
    ((500 : ℚ) < 1000 ∧ (500 : ℚ) - (none : Option ℚ).getD 1000 < 1 ∧
      validate_max (some 500) (some none) =
        .error (.maxNotGreater 500 ((none : Option ℚ).getD 1000))) :=
  ⟨c6_validate_max_behavior.1 _,
   ⟨by norm_num, c6_validate_max_behavior.2.1 _ _ (by norm_num)⟩,
   ⟨by norm_num, c6_validate_max_behavior.2.2.1 _ (by norm_num)⟩,
   ⟨by norm_num, by norm_num,
    c6_validate_max_behavior.2.2.2.1 _ _ (by norm_num) (by norm_num)⟩,
   ⟨by norm_num, by norm_num,
    c6_validate_max_behavior.2.2.2.2 _ _ (by norm_num) (by norm_num)⟩⟩

/-! ## Claim C7 — `upgrade_until` forced empty when upgrades are disabled -/

/-- C7: whenever `upgrades_allowed` validated to `False` and `qualities`
validated successfully, `validate_upgrade_until` returns `None` regardless
of the input value. -/
theorem c7_upgrade_until_forced_none (value : Option String)
    (qualities : List QualityEntry) :
    validate_upgrade_until value (some false) (some qualities) = .ok none := rfl

/-! ## Claim C10 — `validate_upgrade_until` skips all checks on `KeyError` -/

/-- C10: when `qualities` (or `upgrades_allowed`) is missing from the
previously validated data, `validate_upgrade_until` returns its input
unchanged, performing none of its checks. -/
theorem c10_skip_on_missing :
    (∀ (value : Option String) (upgradesAllowed? : Option Bool),
      validate_upgrade_until value upgradesAllowed? none = .ok value) ∧
    (∀ (value : Option String) (qualities? : Option (List QualityEntry)),
      validate_upgrade_until value none qualities? = .ok value) := by
  refine ⟨fun value ua? => ?_, fun value qs? => ?_⟩
  · cases ua? <;> rfl
  · cases qs? <;> rfl

end BuildarrSonarr

namespace BuildarrSonarr

/-! ## `QualityProfile.validate_qualities` (lines 190-218) -/

/-- The `ValueError` message built by `validate_qualities`
(config/profiles/quality.py lines 200-215) when `name` occurs both in
`quality` (the entry being processed) and in `other` (the entry already
recorded in `quality_name_map`).  The first branch mirrors the source
verbatim: line 202 tests `isinstance(quality, str)` twice, so `other` is
never inspected by that condition. -/
def duplicateQualityMessage (name : String) (quality other : QualityEntry) : String :=
  "duplicate entries of quality value '" ++ name ++ "' exist (" ++
    (if quality.isStr && quality.isStr then
      "both are non-grouped quality values"
    else
      (match quality with
       | .group g => "one as part of quality group '" ++ g.name ++ "', "
       | .bare _ => "one as a non-grouped quality value, ") ++
      (match other with
       | .group g => "another as part of quality group '" ++ g.name ++ "'"
       | .bare _ => "another as a non-grouped quality value")) ++ ")"

/-- Inner loop of `validate_qualities` (lines 198-217): record each name
contributed by `quality` in `quality_name_map`, raising on a duplicate. -/
def validateQualitiesNames (map : List (String × QualityEntry)) (quality : QualityEntry) :
    List String → Except String (List (String × QualityEntry))
  | [] => .ok map
  | name :: rest =>
    match map.lookup name with
    | some other => .error (duplicateQualityMessage name quality other)
    | none => validateQualitiesNames ((name, quality) :: map) quality rest

/-- Outer loop of `validate_qualities` (lines 197-217). -/
def validateQualitiesLoop (map : List (String × QualityEntry)) :
    List QualityEntry → Except String Unit
  | [] => .ok ()
  | quality :: rest =>
    match validateQualitiesNames map quality (entryNames quality) with
    | .error e => .error e
    | .ok map' => validateQualitiesLoop map' rest

/-- `QualityProfile.validate_qualities` (config/profiles/quality.py lines
190-218): every individual quality name (bare entry or group member) must be
new; on success the input list is returned unchanged. -/
def validate_qualities (value : List QualityEntry) : Except String (List QualityEntry) :=
  match validateQualitiesLoop [] value with
  | .error e => .error e
  | .ok _ => .ok value

/-! ## The remaining profile validators and profile construction -/

/-- Python `repr` of an optional score, as interpolated into the
`validate_custom_format` error message. -/
def scoreRepr : Option Int → String
  | none => "None"
  | some i => toString i

/-- `QualityProfile.validate_upgrade_until_custom_format_score`
(config/profiles/quality.py lines 249-262).  `minimumEntry` is
`values["minimum_custom_format_score"]`; `none` models the `KeyError`. -/
def validate_upgrade_until_custom_format_score (value : Int)
    (minimumEntry : Option Int) : Except String Int :=
  match minimumEntry with
  | none => .ok value
  | some minimum_custom_format_score =>
    if value < minimum_custom_format_score then
      .error ("value (" ++ toString value ++ ") must be greater than " ++
        "'minimum_custom_format_score' (" ++ toString minimum_custom_format_score ++ ")")
    else .ok value

/-- Loop of `QualityProfile.validate_custom_format`
(config/profiles/quality.py lines 264-282): duplicates with an identical
score are silently dropped, duplicates with differing scores raise. -/
def validateCustomFormatLoop (custom_format_names : List (String × Option Int))
    (custom_formats : List CustomFormatScore) :
    List CustomFormatScore → Except String (List CustomFormatScore)
  | [] => .ok custom_formats
  | cf :: rest =>
    match custom_format_names.lookup cf.name with
    | some first_score =>
      if first_score = cf.score then
        validateCustomFormatLoop custom_format_names custom_formats rest
      else
        .error ("more than one score defined for custom format '" ++ cf.name ++
          "' (scores: " ++ scoreRepr first_score ++ ", " ++ scoreRepr cf.score ++ ")")
    | none =>
      validateCustomFormatLoop ((cf.name, cf.score) :: custom_format_names)
        (custom_formats ++ [cf]) rest

/-- `QualityProfile.validate_custom_format` (lines 264-282). -/
def validate_custom_format (value : List CustomFormatScore) :
    Except String (List CustomFormatScore) :=
  validateCustomFormatLoop [] [] value

/-- Construction of a `QualityProfile` from raw field values: the pydantic
type constraints (`qualities` and every group's `members` non-empty,
`minimum_custom_format_score_increment ≥ 1`) followed by the four field
validators, run in field-definition order with each validator seeing the
previously validated fields.  pydantic collects the errors of all fields
while this model stops at the first one; only success or failure of the
whole construction is used by the theorems below. -/
def mkProfile (upgrades_allowed : Bool) (qualities : List QualityEntry)
    (minimum_custom_format_score upgrade_until_custom_format_score
      minimum_custom_format_score_increment : Int)
    (custom_formats : List CustomFormatScore) (upgrade_until : Option String) :
    Except String QualityProfile :=
  if qualities.isEmpty then .error "qualities: List should have at least 1 item"
  else if qualities.any (fun q => match q with
      | .group g => g.members.isEmpty
      | .bare _ => false) then
    .error "members: Set should have at least 1 item"
  else
    match validate_qualities qualities with
    | .error e => .error e
    | .ok qualities' =>
      match validate_upgrade_until_custom_format_score
          upgrade_until_custom_format_score (some minimum_custom_format_score) with
      | .error e => .error e
      | .ok uucfs =>
        if minimum_custom_format_score_increment < 1 then
          .error "minimum_custom_format_score_increment: greater than or equal to 1"
        else
          match validate_custom_format custom_formats with
          | .error e => .error e
          | .ok custom_formats' =>
            match validate_upgrade_until upgrade_until
                (some upgrades_allowed) (some qualities') with
            | .error e => .error e
            | .ok upgrade_until' =>
              .ok ⟨upgrades_allowed, qualities', minimum_custom_format_score, uucfs,
                minimum_custom_format_score_increment, custom_formats', upgrade_until'⟩

end BuildarrSonarr

namespace BuildarrSonarr

/-! ## Helper lemmas about association-list lookup and `validate_qualities` -/

/-- An association-list lookup fails exactly when the key is absent. -/
theorem lookup_eq_none_iff {β : Type} (l : List (String × β)) (n : String) :
    l.lookup n = none ↔ n ∉ l.map Prod.fst := by
  induction l with
  | nil => simp [List.lookup]
  | cons p rest ih =>
    obtain ⟨k, v⟩ := p
    by_cases h : n = k
    · simp [List.lookup, h]
    · have hb : (n == k) = false := beq_eq_false_iff_ne.mpr h
      simp [List.lookup, hb, ih, h]

/-- If the names being recorded are fresh and pairwise distinct, the inner
loop of `validate_qualities` succeeds and extends the name map by exactly
those names. -/
theorem validateQualitiesNames_ok_of (quality : QualityEntry) (names : List String)
    (map : List (String × QualityEntry))
    (hdisj : ∀ n ∈ names, n ∉ map.map Prod.fst) (hnd : names.Nodup) :
    ∃ map', validateQualitiesNames map quality names = .ok map' ∧
      map'.map Prod.fst = names.reverse ++ map.map Prod.fst := by
  induction names generalizing map with
  | nil => exact ⟨map, rfl, by simp [validateQualitiesNames]⟩
  | cons name rest ih =>
    have hlk : map.lookup name = none :=
      (lookup_eq_none_iff map name).mpr (hdisj name (by simp))
    have hd' : ∀ n ∈ rest, n ∉ ((name, quality) :: map).map Prod.fst := by
      intro n hn
      simp only [List.map_cons, List.mem_cons, not_or]
      exact ⟨fun h => (List.nodup_cons.mp hnd).1 (h ▸ hn),
        hdisj n (by simp [hn])⟩
    obtain ⟨map', h1, h2⟩ := ih ((name, quality) :: map) hd' (List.nodup_cons.mp hnd).2
    refine ⟨map', by simp [validateQualitiesNames, hlk, h1], ?_⟩
    simp [h2]

/-- Conversely, success of the inner loop forces the recorded names to be
fresh and pairwise distinct. -/
theorem validateQualitiesNames_ok_inv (quality : QualityEntry) (names : List String)
    (map map' : List (String × QualityEntry))
    (h : validateQualitiesNames map quality names = .ok map') :
    names.Nodup ∧ (∀ n ∈ names, n ∉ map.map Prod.fst) ∧
      map'.map Prod.fst = names.reverse ++ map.map Prod.fst := by
  induction names generalizing map with
  | nil =>
    simp only [validateQualitiesNames] at h
    cases h
    exact ⟨List.nodup_nil, by simp, by simp⟩
  | cons name rest ih =>
    simp only [validateQualitiesNames] at h
    cases hlk : map.lookup name with
    | some other => rw [hlk] at h; cases h
    | none =>
      rw [hlk] at h
      obtain ⟨hnd, hfresh, hkeys⟩ := ih ((name, quality) :: map) h
      have hname : name ∉ map.map Prod.fst := (lookup_eq_none_iff map name).mp hlk
      have hnr : name ∉ rest := fun hmem => (hfresh name hmem) (by simp)
      refine ⟨List.nodup_cons.mpr ⟨hnr, hnd⟩, ?_, by simp [hkeys]⟩
      intro n hn
      rcases List.mem_cons.mp hn with h1 | h1
      · exact h1 ▸ hname
      · intro hk
        exact hfresh n h1 (by simp [hk])

/-- If all individual quality names are fresh and pairwise distinct, the
outer loop of `validate_qualities` succeeds. -/
theorem validateQualitiesLoop_ok_of (value : List QualityEntry)
    (map : List (String × QualityEntry))
    (hdisj : ∀ n ∈ value.flatMap entryNames, n ∉ map.map Prod.fst)
    (hnd : (value.flatMap entryNames).Nodup) :
    validateQualitiesLoop map value = .ok () := by
  induction value generalizing map with
  | nil => rfl
  | cons q rest ih =>
    simp only [List.flatMap_cons] at hdisj hnd
    obtain ⟨h1, h2, h3⟩ := List.nodup_append.mp hnd
    obtain ⟨map', hok, hkeys⟩ := validateQualitiesNames_ok_of q (entryNames q) map
      (fun n hn => hdisj n (List.mem_append_left _ hn)) h1
    have hdisj' : ∀ n ∈ rest.flatMap entryNames, n ∉ map'.map Prod.fst := by
      intro n hn
      rw [hkeys]
      simp only [List.mem_append, List.mem_reverse, not_or]
      exact ⟨fun hmem => h3 hmem hn, hdisj n (List.mem_append_right _ hn)⟩
    simp [validateQualitiesLoop, hok, ih map' hdisj' h2]

/-- Conversely, success of the outer loop forces all individual quality
names to be fresh and pairwise distinct. -/
theorem validateQualitiesLoop_ok_inv (value : List QualityEntry)
    (map : List (String × QualityEntry))
    (h : validateQualitiesLoop map value = .ok ()) :
    (∀ n ∈ value.flatMap entryNames, n ∉ map.map Prod.fst) ∧
      (value.flatMap entryNames).Nodup := by
  induction value generalizing map with
  | nil => simp
  | cons q rest ih =>
    simp only [validateQualitiesLoop] at h
    cases hok : validateQualitiesNames map q (entryNames q) with
    | error e => rw [hok] at h; cases h
    | ok map' =>
      rw [hok] at h
      obtain ⟨hnd1, hfresh1, hkeys⟩ := validateQualitiesNames_ok_inv q _ map map' hok
      obtain ⟨hfresh2, hnd2⟩ := ih map' h
      simp only [List.flatMap_cons]
      constructor
      · intro n hn
        rcases List.mem_append.mp hn with h1 | h1
        · exact hfresh1 n h1
        · intro hk
          exact hfresh2 n h1 (by rw [hkeys]; exact List.mem_append_right _ hk)
      · refine List.nodup_append.mpr ⟨hnd1, hnd2, ?_⟩
        intro n hn1 hn2
        exact hfresh2 n hn2 (by rw [hkeys]; simp [hn1])

/-- On success `validate_qualities` returns its input, and all individual
quality names (bare entries plus group members) are pairwise distinct. -/
theorem validate_qualities_ok_inv (value r : List QualityEntry)
    (h : validate_qualities value = .ok r) :
    r = value ∧ (value.flatMap entryNames).Nodup := by
  unfold validate_qualities at h
  cases hl : validateQualitiesLoop [] value with
  | error e => rw [hl] at h; cases h
  | ok u =>
    rw [hl] at h
    cases h
    exact ⟨rfl, (validateQualitiesLoop_ok_inv value [] (by cases u; exact hl)).2⟩

end BuildarrSonarr

namespace BuildarrSonarr

/-! ## Claim C3 — the duplicate-entry error message -/

/-- C3: when a quality name occurs first inside a group and a second time as
a bare entry, the loop processes the bare entry with the group recorded as
`other`; the source's condition `isinstance(quality, str) and
isinstance(quality, str)` (line 202) tests the bare entry twice instead of
testing `other`, so the message wrongly reports "both are non-grouped
quality values" and fails to identify the group.  This theorem evaluates
the embedded validator at such an input: `"A"` occurs first in group `"G"`
and again as a bare value, yet the emitted message names no group. -/
theorem c3_duplicate_message_bug :
    validate_qualities [.group ⟨"G", ["A"]⟩, .bare "A"] =
      .error "duplicate entries of quality value 'A' exist (both are non-grouped quality values)" := by
  rfl

/-! ## Claim C4 — group names are not checked for uniqueness -/

/-- C4 counterexample: constructing a profile whose `qualities` list
contains two groups both named `"G"` (with disjoint members) and a bare
entry also named `"G"` succeeds — `validate_qualities` only records bare
names and group members, never a group's own name, so no validator rejects
the clash and full profile construction returns a profile. -/
theorem c4_counterexample :
    mkProfile false [.group ⟨"G", ["A"]⟩, .group ⟨"G", ["B"]⟩, .bare "G"] 0 0 1 [] none =
      .ok ⟨false, [.group ⟨"G", ["A"]⟩, .group ⟨"G", ["B"]⟩, .bare "G"], 0, 0, 1, [], none⟩ := by
  rfl

/-- C4 (amended): profile validation enforces uniqueness only over the
individual quality names — the bare entries and the group members; a
group's own name is never recorded, so any `qualities` list whose
individual names are pairwise distinct passes `validate_qualities`
unchanged, no matter how its group names collide with each other or with
bare entries. -/
theorem c4_group_names_unchecked (value : List QualityEntry)
    (h : (value.flatMap entryNames).Nodup) :
    validate_qualities value = .ok value := by
  unfold validate_qualities
  rw [validateQualitiesLoop_ok_of value [] (by simp) h]

/-- Witness for C4 (amended), at a list whose group names collide with each
other and with a bare entry while the individual quality names stay
distinct. -/
theorem c4_group_names_unchecked_witness :
    ([QualityEntry.group ⟨"G", ["A"]⟩, .group ⟨"G", ["B"]⟩,
        .bare "G"].flatMap entryNames).Nodup ∧
      validate_qualities [.group ⟨"G", ["A"]⟩, .group ⟨"G", ["B"]⟩, .bare "G"] =
        .ok [.group ⟨"G", ["A"]⟩, .group ⟨"G", ["B"]⟩, .bare "G"] :=
  ⟨by decide, c4_group_names_unchecked _ (by decide)⟩

end BuildarrSonarr

namespace BuildarrSonarr

/-! ## Remote JSON model for quality profiles

The remote `items` entries are JSON objects.  An entry produced by
`_encode_quality_str` is `{"quality": {...}, "items": [], "allowed": b}`;
an entry produced by `QualityGroup.encode` is
`{"id": n, "name": s, "allowed": true, "items": [...]}`.  `RemoteItem`
models a top-level entry with each optional key as an `Option` field
(`none` = key absent, so reading it raises `KeyError`); the nested entries
of a group's `items` are modelled by `RemoteQuality` (their own `items`
key, always the empty list, is elided). -/

/-- The remote `quality` object `{"id": ..., "name": ...}` from the quality
definition catalog. -/
structure QualityObj where
  id : Int
  name : String
deriving DecidableEq, Repr

/-- A nested member entry of a group's `items` list. -/
structure RemoteQuality where
  quality? : Option QualityObj
  allowed : Bool
deriving DecidableEq, Repr

/-- A top-level entry of a remote profile's `items` list. -/
structure RemoteItem where
  id? : Option Int
  name? : Option String
  quality? : Option QualityObj
  allowed : Bool
  items : List RemoteQuality
deriving DecidableEq, Repr

/-- `_encode_quality_str` (config/profiles/quality.py lines 619-624):
`{"quality": quality_definitions[quality_name], "items": [], "allowed":
allowed}`; the lookup raises `KeyError` when the name is unknown. -/
def _encode_quality_str (quality_definitions : List (String × QualityObj))
    (quality_name : String) (allowed : Bool) : Option RemoteQuality :=
  (quality_definitions.lookup quality_name).map (fun q => ⟨some q, allowed⟩)

/-- A bare `_encode_quality_str` result used as a top-level `items` entry
(no `id` or `name` keys). -/
def liftQuality (rq : RemoteQuality) : RemoteItem :=
  ⟨none, none, rq.quality?, rq.allowed, []⟩

/-- Member loop of `QualityGroup.encode` (lines 53-55). -/
def encodeMembers (quality_definitions : List (String × QualityObj)) :
    List String → Option (List RemoteQuality)
  | [] => some []
  | member :: rest => do
    let rq ← _encode_quality_str quality_definitions member true
    let rest' ← encodeMembers quality_definitions rest
    pure (rq :: rest')

/-- `QualityGroup.encode` (config/profiles/quality.py lines 48-56). -/
def QualityGroup.encode (g : QualityGroup) (group_id : Int)
    (quality_definitions : List (String × QualityObj)) : Option RemoteItem := do
  let items ← encodeMembers quality_definitions g.members
  pure ⟨some group_id, some g.name, none, true, items⟩

/-- One iteration of the first loop of `_encode_qualities` (lines 603-610):
a group is encoded via `QualityGroup.encode` with its synthesized id, a
bare name via `_encode_quality_str` with `allowed=True`. -/
def encodeEntry (quality_definitions : List (String × QualityObj))
    (group_ids : List (String × Int)) : QualityEntry → Option RemoteItem
  | .group g => do
    let gid ← group_ids.lookup g.name
    g.encode gid quality_definitions
  | .bare n => (_encode_quality_str quality_definitions n true).map liftQuality

/-- The first loop of `_encode_qualities` over the profile's entries. -/
def encodeEnabled (quality_definitions : List (String × QualityObj))
    (group_ids : List (String × Int)) : List QualityEntry → Option (List RemoteItem)
  | [] => some []
  | q :: rest => do
    let it ← encodeEntry quality_definitions group_ids q
    let rest' ← encodeEnabled quality_definitions group_ids rest
    pure (it :: rest')

/-- The second loop of `_encode_qualities` (lines 612-614): a disabled entry
for every catalog key not already enabled, in catalog order. -/
def encodeDisabled (quality_definitions : List (String × QualityObj))
    (enabled_qualities : List String) : List String → Option (List RemoteItem)
  | [] => some []
  | quality_name :: rest =>
    if enabled_qualities.contains quality_name then
      encodeDisabled quality_definitions enabled_qualities rest
    else do
      let rq ← _encode_quality_str quality_definitions quality_name false
      let rest' ← encodeDisabled quality_definitions enabled_qualities rest
      pure (liftQuality rq :: rest')

/-- `_encode_qualities` (config/profiles/quality.py lines 595-616): encode
the profile's entries in order, append a disabled entry for every
remote-known quality name not enabled by the profile, and reverse the
result.  (The source interleaves building `enabled_qualities` with the
first loop; the set is only read by the second loop, so it is computed up
front here.) -/
def _encode_qualities (quality_definitions : List (String × QualityObj))
    (group_ids : List (String × Int)) (qualities : List QualityEntry) :
    Option (List RemoteItem) := do
  let p1 ← encodeEnabled quality_definitions group_ids qualities
  let p2 ← encodeDisabled quality_definitions (qualities.flatMap entryNames)
    (quality_definitions.map Prod.fst)
  pure (p1 ++ p2).reverse

/-- The nested `member["quality"]["name"]` reads of `_decode_qualities`
(line 584). -/
def memberNamesOf : List RemoteQuality → Option (List String)
  | [] => some []
  | rq :: rest => do
    let q ← rq.quality?
    let rest' ← memberNamesOf rest
    pure (q.name :: rest')

/-- Decoding of one enabled entry (lines 580-589): an entry with a
non-empty `items` list becomes a `QualityGroup` named by the entry's
`name` with the member set built from the nested quality names; an entry
with an empty `items` list becomes the bare nested quality name. -/
def decodeItem (item : RemoteItem) : Option QualityEntry :=
  if item.items.isEmpty then
    item.quality?.map (fun q => .bare q.name)
  else do
    let n ← item.name?
    let names ← memberNamesOf item.items
    pure (.group ⟨n, names.dedup⟩)

/-- Elementwise decoding of the kept entries of `_decode_qualities`. -/
def decodeItems : List RemoteItem → Option (List QualityEntry)
  | [] => some []
  | it :: rest => do
    let e ← decodeItem it
    let rest' ← decodeItems rest
    pure (e :: rest')

/-- `_decode_qualities` (config/profiles/quality.py lines 578-592): walk the
remote list in reverse, keep the entries marked `allowed`, and decode each
one. -/
def _decode_qualities (value : List RemoteItem) : Option (List QualityEntry) :=
  decodeItems ((value.reverse).filter (·.allowed))

end BuildarrSonarr

namespace BuildarrSonarr

/-! ## Cutoff (`upgrade_until`) encode/decode -/

/-- Errors raised by `_upgrade_until_decoder`: a `KeyError` on a missing
key, or the `RuntimeError` of lines 344-347 carrying the offending cutoff
id and the raw `items` payload. -/
inductive CutoffErr
  | keyErr (key : String)
  | runtimeErr (cutoff : Int) (items : List RemoteItem)
deriving DecidableEq, Repr

/-- One iteration of the loop of `_upgrade_until_decoder` (lines 336-343):
`quality = item if "id" in item else item["quality"]`, then compare
`quality["id"]` with the cutoff, returning `quality["name"]` on a match.
`none` means the loop continues; `some` is an early exit (the matched name
or a `KeyError`). -/
def cutoffStep (cutoff : Int) (item : RemoteItem) : Option (Except String String) :=
  match item.id? with
  | some i =>
    if i = cutoff then
      match item.name? with
      | some n => some (.ok n)
      | none => some (.error "name")
    else none
  | none =>
    match item.quality? with
    | some q => if q.id = cutoff then some (.ok q.name) else none
    | none => some (.error "quality")

/-- The loop of `_upgrade_until_decoder` over the `items` list. -/
def cutoffScan (cutoff : Int) : List RemoteItem → Option (Except String String)
  | [] => none
  | item :: rest =>
    match cutoffStep cutoff item with
    | some r => some r
    | none => cutoffScan cutoff rest

/-- `QualityProfile._upgrade_until_decoder` (config/profiles/quality.py
lines 330-347): return the name of the first item whose id matches the
cutoff; raise the unexpected-state `RuntimeError` carrying the cutoff id
and the raw items payload when no item matches. -/
def _upgrade_until_decoder (items : List RemoteItem) (cutoff : Int) :
    Except CutoffErr String :=
  match cutoffScan cutoff items with
  | some (.ok n) => .ok n
  | some (.error k) => .error (.keyErr k)
  | none => .error (.runtimeErr cutoff items)

/-- `QualityProfile._upgrade_until_encoder` (config/profiles/quality.py
lines 349-368): with no local `upgrade_until`, resolve the first
(highest-priority) entry of `qualities`; otherwise resolve the name,
preferring a group-id match over a quality-definition id. -/
def _upgrade_until_encoder (quality_definitions : List (String × QualityObj))
    (group_ids : List (String × Int)) (qualities : List QualityEntry)
    (upgrade_until : Option String) : Option Int :=
  match upgrade_until with
  | none =>
    match qualities with
    | [] => none   -- `qualities[0]` raises IndexError
    | quality :: _ =>
      match quality with
      | .group g => group_ids.lookup g.name
      | .bare n => (quality_definitions.lookup n).map (·.id)
  | some u =>
    match group_ids.lookup u with
    | some gid => some gid
    | none => (quality_definitions.lookup u).map (·.id)

/-! ## Custom-format scores encode/decode -/

/-- One entry of the remote `formatItems` list:
`{"format": id, "name": name, "score": score}`. -/
structure FormatItem where
  format : Int
  name : String
  score : Option Int
deriving DecidableEq, Repr

/-- The sort key order of `_custom_formats_decoder` (line 381):
`(-score, name)` compared lexicographically, ascending.  The name
comparison is only reached on equal scores; the decoder has already
established every score is an `Int` (a `None` score raises `TypeError`
inside the key function), so `getD 0` never decides a comparison. -/
def cfsKeyLE (a b : CustomFormatScore) : Bool :=
  (-(a.score.getD 0) < -(b.score.getD 0)) ||
    ((-(a.score.getD 0) == -(b.score.getD 0)) && !(b.name < a.name))

/-- `QualityProfile._custom_formats_decoder` (config/profiles/quality.py
lines 370-382): keep the remote entries whose score is not `0` (a `None`
score also passes this test), then sort by `(-score, name)` — computing
that key raises `TypeError` if any kept score is `None`, modelled as
`none`.  Python's `sorted` is stable, as is `List.mergeSort`. -/
def _custom_formats_decoder (api_customformat_scores : List FormatItem) :
    Option (List CustomFormatScore) :=
  let kept := (api_customformat_scores.filter (fun fi => fi.score != some 0)).map
    (fun fi => CustomFormatScore.mk fi.name fi.score)
  if kept.all (fun cfs => cfs.score.isSome) then
    some (kept.mergeSort cfsKeyLE)
  else none

/-- First loop of `_custom_formats_encoder` (lines 392-396): one entry per
local custom format score, resolving the name to the remote format id
(`KeyError` when unknown). -/
def encodeCustomFormatScores (api_customformats : List (String × Int)) :
    List CustomFormatScore → Option (List FormatItem)
  | [] => some []
  | cfs :: rest => do
    let fid ← api_customformats.lookup cfs.name
    let rest' ← encodeCustomFormatScores api_customformats rest
    pure (⟨fid, cfs.name, cfs.score⟩ :: rest')

/-- `QualityProfile._custom_formats_encoder` (config/profiles/quality.py
lines 384-403): the locally scored entries in order, then a zero-score
entry for every remote custom format not covered locally, in catalog
order.  `api_customformats` maps each remote custom format name to its id. -/
def _custom_formats_encoder (api_customformats : List (String × Int))
    (customformat_scores : List CustomFormatScore) : Option (List FormatItem) := do
  let locals ← encodeCustomFormatScores api_customformats customformat_scores
  let customformat_names := customformat_scores.map (·.name)
  pure (locals ++ (api_customformats.filter
    (fun e => !(customformat_names.contains e.1))).map
    (fun e => ⟨e.2, e.1, some 0⟩))

/-! ## Whole-profile encode/decode and the reconciliation step -/

/-- Enumeration (0-based `i`, so the id is `1000 + (i + 1)`) over the
`QualityGroup` entries of `qualities`, in order of appearance. -/
def mkGroupIdsAux (i : Nat) : List QualityEntry → List (String × Int)
  | [] => []
  | .group g :: rest => (g.name, (1000 : Int) + (i + 1)) :: mkGroupIdsAux (i + 1) rest
  | .bare _ :: rest => mkGroupIdsAux i rest

/-- The synthesized group ids of `_create_remote`/`_update_remote`
(config/profiles/quality.py lines 417-423 and 448-454): `1000 + i` for the
`i`-th (1-based) `QualityGroup` of `qualities`, keyed by group name. -/
def mkGroupIds (qualities : List QualityEntry) : List (String × Int) :=
  mkGroupIdsAux 0 qualities

/-- The slice of a remote quality profile JSON read and written by the
remote map (config/profiles/quality.py lines 284-328). -/
structure RemoteProfile where
  minFormatScore : Int
  cutoffFormatScore : Int
  minUpgradeFormatScore : Int
  formatItems : List FormatItem
  upgradeAllowed : Bool
  cutoff : Int
  items : List RemoteItem
deriving DecidableEq, Repr

/-- The encoder side of the remote map applied to a local profile: the
remote JSON produced when the profile is pushed (`get_create_remote_attrs`
/ `get_update_remote_attrs` run every encoder of `_get_remote_map`). -/
def encodeProfile (quality_definitions : List (String × QualityObj))
    (api_customformats : List (String × Int)) (group_ids : List (String × Int))
    (p : QualityProfile) : Option RemoteProfile := do
  let formatItems ← _custom_formats_encoder api_customformats p.custom_formats
  let cutoff ← _upgrade_until_encoder quality_definitions group_ids
    p.qualities p.upgrade_until
  let items ← _encode_qualities quality_definitions group_ids p.qualities
  pure ⟨p.minimum_custom_format_score, p.upgrade_until_custom_format_score,
    p.minimum_custom_format_score_increment, formatItems, p.upgrades_allowed,
    cutoff, items⟩

/-- The decoder side (`QualityProfile._from_remote`, lines 405-407): run
every decoder of `_get_remote_map` on the remote JSON, then construct the
profile through the validators (`cls(**attrs)`). -/
def decodeProfile (r : RemoteProfile) : Option QualityProfile := do
  let custom_formats ← _custom_formats_decoder r.formatItems
  let upgrade_until ← (_upgrade_until_decoder r.items r.cutoff).toOption
  let qualities ← _decode_qualities r.items
  (mkProfile r.upgradeAllowed qualities r.minFormatScore r.cutoffFormatScore
    r.minUpgradeFormatScore custom_formats (some upgrade_until)).toOption

/-- Modelled from the spec: the diffing primitive `get_update_remote_attrs`
of the buildarr framework (an external collaborator whose code is not part
of this repository) "diff[s] local vs. remote-decoded instance
field-by-field using the same remote-map transformations as decode, and if
any field differs, PUT[s] the full updated attribute set"; `_update_remote`
(config/profiles/quality.py lines 438-471) issues its PUT exactly when that
diff reports a change.  The structure fields of `QualityProfile` are
exactly the mapped fields, so the field-by-field comparison is structure
inequality. -/
def updateRemotePuts (localProfile remoteInstance : QualityProfile) : Bool :=
  localProfile ≠ remoteInstance

/-- A second reconciliation run against a remote whose state is exactly the
result of applying the local profile: the remote JSON is
`encodeProfile ... p` with the group ids synthesized from `p` itself, the
remote instance is its decode, and the run PUTs iff the field-by-field
diff reports a change.  `none` means encode or decode itself failed. -/
def secondRunChanged (quality_definitions : List (String × QualityObj))
    (api_customformats : List (String × Int)) (p : QualityProfile) : Option Bool := do
  let r ← encodeProfile quality_definitions api_customformats
    (mkGroupIds p.qualities) p
  let remoteInstance ← decodeProfile r
  pure (updateRemotePuts p remoteInstance)

end BuildarrSonarr

namespace BuildarrSonarr

/-! ## Claim C9 — the cutoff decoder -/

/-- Whether one remote item is the cutoff's item: the item's own id when the
item has an `id` key (a group), else the nested quality's id. -/
def matchesCutoff (cutoff : Int) (item : RemoteItem) : Bool :=
  match item.id? with
  | some i => i == cutoff
  | none =>
    match item.quality? with
    | some q => q.id == cutoff
    | none => false

/-- The name the decoder reads off a matched item: the item's own `name`
for a group, else the nested quality's name. -/
def itemCutoffName (item : RemoteItem) : String :=
  match item.id? with
  | some _ => item.name?.getD ""
  | none => (item.quality?.map (·.name)).getD ""

/-- On a well-formed item, one loop step returns the item's name exactly
when the item matches the cutoff, and never raises a `KeyError`. -/
theorem cutoffStep_of_wf (cutoff : Int) (item : RemoteItem)
    (h1 : item.id?.isSome → item.name?.isSome)
    (h2 : item.id? = none → item.quality?.isSome) :
    cutoffStep cutoff item =
      if matchesCutoff cutoff item then some (.ok (itemCutoffName item)) else none := by
  cases hid : item.id? with
  | some i =>
    cases hn : item.name? with
    | some n =>
      by_cases h : i = cutoff <;>
        simp [cutoffStep, matchesCutoff, itemCutoffName, hid, hn, h]
    | none => exact absurd (h1 (by simp [hid])) (by simp [hn])
  | none =>
    cases hq : item.quality? with
    | some q =>
      by_cases h : q.id = cutoff <;>
        simp [cutoffStep, matchesCutoff, itemCutoffName, hid, hq, h]
    | none => exact absurd (h2 hid) (by simp [hq])

/-- On a well-formed items list the loop of `_upgrade_until_decoder` is the
first-match search over `matchesCutoff`. -/
theorem cutoffScan_of_wf (cutoff : Int) (items : List RemoteItem)
    (hwf : ∀ it ∈ items, (it.id?.isSome → it.name?.isSome) ∧
      (it.id? = none → it.quality?.isSome)) :
    cutoffScan cutoff items =
      (items.find? (matchesCutoff cutoff)).map (fun it => .ok (itemCutoffName it)) := by
  induction items with
  | nil => rfl
  | cons it rest ih =>
    obtain ⟨h1, h2⟩ := hwf it (by simp)
    rw [cutoffScan, cutoffStep_of_wf cutoff it h1 h2, List.find?]
    by_cases h : matchesCutoff cutoff it
    · simp [h]
    · simp only [Bool.not_eq_true] at h
      simp [h, ih (fun x hx => hwf x (by simp [hx]))]

/-- C9: for every well-formed remote items list (each entry has `id` and
`name` keys, or a nested `quality` object) and cutoff id, the decoder
returns the name of the first item whose id matches the cutoff — the
item's own id when it has an `id` key, else the nested quality's id — and
raises the unexpected-state `RuntimeError` carrying the offending cutoff
id and the raw items payload exactly when no item matches. -/
theorem c9_cutoff_decoder (items : List RemoteItem) (cutoff : Int)
    (hwf : ∀ it ∈ items, (it.id?.isSome → it.name?.isSome) ∧
      (it.id? = none → it.quality?.isSome)) :
    (∀ it, items.find? (matchesCutoff cutoff) = some it →
      _upgrade_until_decoder items cutoff = .ok (itemCutoffName it)) ∧
    (_upgrade_until_decoder items cutoff = .error (.runtimeErr cutoff items) ↔
      ∀ it ∈ items, matchesCutoff cutoff it = false) := by
  have hscan := cutoffScan_of_wf cutoff items hwf
  constructor
  · intro it hit
    rw [_upgrade_until_decoder, hscan, hit, Option.map_some']
  · rw [_upgrade_until_decoder, hscan]
    cases hfind : items.find? (matchesCutoff cutoff) with
    | some it =>
      rw [Option.map_some']
      constructor
      · intro h; cases h
      · intro hall
        have := List.find?_some hfind
        rw [hall it (List.mem_of_find?_eq_some hfind)] at this
        cases this
    | none =>
      rw [Option.map_none']
      constructor
      · intro _
        exact fun it hit => Bool.not_eq_true _ ▸ (List.find?_eq_none.mp hfind it hit)
      · intro _; rfl

/-- Witness for C9: a two-item list (one group entry with id 5, one bare
entry whose nested quality has id 3); cutoff 3 decodes to the bare
quality's name, cutoff 99 raises the unexpected-state error. -/
theorem c9_cutoff_decoder_witness :
    _upgrade_until_decoder
        [⟨some 5, some "G", none, true, []⟩, ⟨none, none, some ⟨3, "A"⟩, true, []⟩]
        3 = .ok "A" ∧
      _upgrade_until_decoder
        [⟨some 5, some "G", none, true, []⟩, ⟨none, none, some ⟨3, "A"⟩, true, []⟩]
        99 = .error (.runtimeErr 99
          [⟨some 5, some "G", none, true, []⟩, ⟨none, none, some ⟨3, "A"⟩, true, []⟩]) := by
  constructor
  · exact (c9_cutoff_decoder _ 3 (by decide)).1
      ⟨none, none, some ⟨3, "A"⟩, true, []⟩ (by rfl)
  · exact (c9_cutoff_decoder _ 99 (by decide)).2.mpr (by decide)

end BuildarrSonarr

namespace BuildarrSonarr

/-! ## Claim C8 — custom-format encoder completeness -/

/-- The output shape claimed for `_custom_formats_encoder`: one item per
local score in order (resolved id, name, local score), then one zero-score
item per uncovered catalog entry, in catalog order. -/
def expectedCustomFormatItems (api_customformats : List (String × Int))
    (cfs : List CustomFormatScore) : List FormatItem :=
  (cfs.map (fun c =>
      ⟨(api_customformats.lookup c.name).getD 0, c.name, c.score⟩)) ++
    (api_customformats.filter
      (fun e => !((cfs.map (·.name)).contains e.1))).map
      (fun e => ⟨e.2, e.1, some 0⟩)

/-- If every local name resolves in the catalog, the first loop of the
custom-format encoder succeeds and produces one item per local score,
carrying the resolved id, the name and the (possibly absent) score. -/
theorem encodeCustomFormatScores_ok (api_customformats : List (String × Int))
    (cfs : List CustomFormatScore)
    (hsub : ∀ c ∈ cfs, (api_customformats.lookup c.name).isSome) :
    encodeCustomFormatScores api_customformats cfs =
      some (cfs.map (fun c =>
        ⟨(api_customformats.lookup c.name).getD 0, c.name, c.score⟩)) := by
  induction cfs with
  | nil => rfl
  | cons c rest ih =>
    obtain ⟨fid, hfid⟩ := Option.isSome_iff_exists.mp (hsub c (by simp))
    rw [encodeCustomFormatScores, hfid,
      ih (fun x hx => hsub x (by simp [hx]))]
    simp [hfid]

/-- A successful lookup means the key is one of the catalog's keys. -/
theorem mem_keys_of_lookup_isSome {β : Type} (l : List (String × β)) (n : String)
    (h : (l.lookup n).isSome) : n ∈ l.map Prod.fst := by
  by_contra hmem
  rw [(lookup_eq_none_iff l n).mpr hmem] at h
  cases h

/-- C8: for a deduplicated local custom-format score list whose names all
resolve in the remote catalog (itself keyed without duplicates), the
encoder emits the locally scored entries in order — each carrying the
local score, possibly absent — followed by one zero-score entry per
uncovered remote format, and the emitted names are exactly the remote
catalog's names, each exactly once (no duplicates, no omissions). -/
theorem c8_encoder_complete (api_customformats : List (String × Int))
    (cfs : List CustomFormatScore)
    (hnd : (cfs.map (·.name)).Nodup)
    (hsub : ∀ c ∈ cfs, (api_customformats.lookup c.name).isSome)
    (hkeys : (api_customformats.map Prod.fst).Nodup) :
    _custom_formats_encoder api_customformats cfs =
      some (expectedCustomFormatItems api_customformats cfs) ∧
    List.Perm ((expectedCustomFormatItems api_customformats cfs).map (·.name))
      (api_customformats.map Prod.fst) ∧
    ((expectedCustomFormatItems api_customformats cfs).map (·.name)).Nodup := by
  have henc : _custom_formats_encoder api_customformats cfs =
      some (expectedCustomFormatItems api_customformats cfs) := by
    rw [_custom_formats_encoder,
      encodeCustomFormatScores_ok api_customformats cfs hsub]
    rfl
  set A := cfs.map (·.name) with hA
  set K := api_customformats.map Prod.fst with hK
  have hnames : (expectedCustomFormatItems api_customformats cfs).map (·.name) =
      A ++ K.filter (fun k => !(A.contains k)) := by
    rw [expectedCustomFormatItems, List.map_append]
    congr 1
    · simp [hA]
    · rw [hK, List.filter_map]
      simp only [List.map_map]
      rfl
  have hAsubK : ∀ a ∈ A, a ∈ K :=
    fun a ha => by
      obtain ⟨c, hc, rfl⟩ := List.mem_map.mp (hA ▸ ha)
      exact hK ▸ mem_keys_of_lookup_isSome api_customformats c.name (hsub c hc)
  have hperm : List.Perm (A ++ K.filter (fun k => !(A.contains k))) K := by
    have hsplit : List.Perm
        (K.filter (fun k => A.contains k) ++ K.filter (fun k => !(A.contains k))) K :=
      List.filter_append_perm _ K
    refine List.Perm.trans (List.Perm.append_right _ ?_) hsplit
    refine List.perm_of_nodup_nodup_toFinset_eq hnd (hkeys.filter _) ?_
    ext a
    simp only [List.mem_toFinset, List.mem_filter, List.elem_iff]
    exact ⟨fun ha => ⟨hAsubK a ha, by simpa [List.elem_iff] using ha⟩,
      fun h => by simpa [List.elem_iff] using h.2⟩
  have hnodup : (A ++ K.filter (fun k => !(A.contains k))).Nodup := by
    rw [List.nodup_append]
    refine ⟨hnd, hkeys.filter _, ?_⟩
    intro a ha hb
    have hc := List.of_mem_filter hb
    simp only [Bool.not_eq_true', ← Bool.not_eq_true, List.elem_iff] at hc
    exact hc ha
  rw [hnames]
  exact ⟨henc, hperm, hnodup⟩

/-- Witness for C8: catalog `a ↦ 1, b ↦ 2, c ↦ 3`, local scores `[b ↦ 5]`:
the encoder covers all three catalog names exactly once, with `b` first
carrying its local score. -/
theorem c8_encoder_complete_witness :
    (([⟨"b", some 5⟩] : List CustomFormatScore).map (·.name)).Nodup ∧
      (∀ c ∈ ([⟨"b", some 5⟩] : List CustomFormatScore),
        (([("a", (1 : Int)), ("b", 2), ("c", 3)]).lookup c.name).isSome) ∧
      (([("a", (1 : Int)), ("b", 2), ("c", 3)].map Prod.fst).Nodup) ∧
      _custom_formats_encoder [("a", 1), ("b", 2), ("c", 3)] [⟨"b", some 5⟩] =
        some [⟨2, "b", some 5⟩, ⟨1, "a", some 0⟩, ⟨3, "c", some 0⟩] := by
  refine ⟨by decide, by decide, by decide, ?_⟩
  have h := (c8_encoder_complete [("a", 1), ("b", 2), ("c", 3)] [⟨"b", some 5⟩]
    (by decide) (by decide) (by decide)).1
  rw [h]
  rfl

end BuildarrSonarr

namespace BuildarrSonarr

/-! ## Round-trip of the qualities encode/decode pair -/

/-- A key of the catalog always resolves. -/
theorem lookup_isSome_of_mem_keys {β : Type} (l : List (String × β)) (n : String)
    (h : n ∈ l.map Prod.fst) : (l.lookup n).isSome := by
  rw [← Option.ne_none_iff_isSome]
  intro hn
  exact (lookup_eq_none_iff l n).mp hn h

/-- If every member resolves to a catalog object bearing the member's name,
encoding a group's member list succeeds and decoding the nested names
gives back exactly the member list. -/
theorem encodeMembers_ok (quality_definitions : List (String × QualityObj))
    (members : List String)
    (h : ∀ m ∈ members, ∃ q, quality_definitions.lookup m = some q ∧ q.name = m) :
    ∃ rqs, encodeMembers quality_definitions members = some rqs ∧
      memberNamesOf rqs = some members ∧ rqs.length = members.length := by
  induction members with
  | nil => exact ⟨[], rfl, rfl, rfl⟩
  | cons m rest ih =>
    obtain ⟨q, hq, hname⟩ := h m (by simp)
    obtain ⟨rqs, h1, h2, h3⟩ := ih (fun x hx => h x (by simp [hx]))
    refine ⟨⟨some q, true⟩ :: rqs, ?_, ?_, by simp [h3]⟩
    · rw [encodeMembers]
      simp [_encode_quality_str, hq, h1]
    · rw [memberNamesOf]
      simp [h2, hname]

/-- Decoding the encoded form of a group with a non-empty, duplicate-free
member list restores the group. -/
theorem decodeItem_group (gid : Int) (g : QualityGroup) (rqs : List RemoteQuality)
    (hne : rqs ≠ []) (hnames : memberNamesOf rqs = some g.members)
    (hnd : g.members.Nodup) :
    decodeItem ⟨some gid, some g.name, none, true, rqs⟩ = some (.group g) := by
  rw [decodeItem]
  simp [hne, hnames, List.dedup_eq_self.mpr hnd]

/-- Encoding one profile entry yields an enabled item that decodes back to
the entry, provided every referenced name resolves to a catalog object of
the same name, the group (if any) has a synthesized id, and its member
list is non-empty and duplicate-free. -/
theorem encodeEntry_roundtrip (quality_definitions : List (String × QualityObj))
    (group_ids : List (String × Int)) (e : QualityEntry)
    (href : ∀ n ∈ entryNames e, ∃ q, quality_definitions.lookup n = some q ∧ q.name = n)
    (hgid : ∀ g, e = QualityEntry.group g → (group_ids.lookup g.name).isSome)
    (hmem : ∀ g, e = QualityEntry.group g → g.members ≠ [] ∧ g.members.Nodup) :
    ∃ it, encodeEntry quality_definitions group_ids e = some it ∧
      it.allowed = true ∧ decodeItem it = some e := by
  cases e with
  | bare n =>
    obtain ⟨q, hq, hname⟩ := href n (by simp [entryNames])
    refine ⟨⟨none, none, some q, true, []⟩, ?_, rfl, ?_⟩
    · simp [encodeEntry, _encode_quality_str, hq, liftQuality]
    · simp [decodeItem, hname]
  | group g =>
    obtain ⟨hne, hnd⟩ := hmem g rfl
    obtain ⟨gid, hgidv⟩ := Option.isSome_iff_exists.mp (hgid g rfl)
    obtain ⟨rqs, h1, h2, h3⟩ := encodeMembers_ok quality_definitions g.members
      (fun m hm => href m (by simpa [entryNames] using hm))
    have hrne : rqs ≠ [] := by
      intro hr
      rw [hr] at h3
      exact hne (List.length_eq_zero.mp h3.symm)
    refine ⟨⟨some gid, some g.name, none, true, rqs⟩, ?_, rfl,
      decodeItem_group gid g rqs hrne h2 hnd⟩
    simp [encodeEntry, hgidv, QualityGroup.encode, h1]

/-- The first encoding loop succeeds on a well-referenced entry list, every
produced item is enabled, and elementwise decoding restores the list. -/
theorem encodeEnabled_roundtrip (quality_definitions : List (String × QualityObj))
    (group_ids : List (String × Int)) (qualities : List QualityEntry)
    (href : ∀ e ∈ qualities, ∀ n ∈ entryNames e,
      ∃ q, quality_definitions.lookup n = some q ∧ q.name = n)
    (hgid : ∀ g, QualityEntry.group g ∈ qualities → (group_ids.lookup g.name).isSome)
    (hmem : ∀ g, QualityEntry.group g ∈ qualities → g.members ≠ [] ∧ g.members.Nodup) :
    ∃ p1, encodeEnabled quality_definitions group_ids qualities = some p1 ∧
      (∀ it ∈ p1, it.allowed = true) ∧ decodeItems p1 = some qualities := by
  induction qualities with
  | nil => exact ⟨[], rfl, by simp, rfl⟩
  | cons e rest ih =>
    obtain ⟨it, h1, h2, h3⟩ := encodeEntry_roundtrip quality_definitions group_ids e
      (href e (by simp)) (fun g hg => hgid g (by simp [hg]))
      (fun g hg => hmem g (by simp [hg]))
    obtain ⟨p1, h4, h5, h6⟩ := ih (fun x hx => href x (by simp [hx]))
      (fun g hg => hgid g (by simp; right; exact hg))
      (fun g hg => hmem g (by simp; right; exact hg))
    refine ⟨it :: p1, ?_, ?_, ?_⟩
    · rw [encodeEnabled]
      simp [h1, h4]
    · intro x hx
      rcases List.mem_cons.mp hx with h | h
      · exact h ▸ h2
      · exact h5 x h
    · rw [decodeItems]
      simp [h3, h6]

/-- The second encoding loop succeeds whenever every processed name is a
catalog key, and every produced item is disabled. -/
theorem encodeDisabled_spec (quality_definitions : List (String × QualityObj))
    (enabled_qualities : List String) (names : List String)
    (hnames : ∀ n ∈ names, n ∈ quality_definitions.map Prod.fst) :
    ∃ p2, encodeDisabled quality_definitions enabled_qualities names = some p2 ∧
      ∀ it ∈ p2, it.allowed = false := by
  induction names with
  | nil => exact ⟨[], rfl, by simp⟩
  | cons n rest ih =>
    obtain ⟨p2, h1, h2⟩ := ih (fun x hx => hnames x (by simp [hx]))
    by_cases hc : enabled_qualities.contains n
    · exact ⟨p2, by rw [encodeDisabled, if_pos hc]; exact h1, h2⟩
    · obtain ⟨q, hq⟩ := Option.isSome_iff_exists.mp
        (lookup_isSome_of_mem_keys quality_definitions n (hnames n (by simp)))
      refine ⟨liftQuality ⟨some q, false⟩ :: p2, ?_, ?_⟩
      · rw [encodeDisabled, if_neg hc]
        simp [_encode_quality_str, hq, h1]
      · intro x hx
        rcases List.mem_cons.mp hx with h | h
        · rw [h]; rfl
        · exact h2 x h

/-- Shared round-trip core: under the referencing conditions, encoding the
qualities list succeeds, and decoding the encoded list restores the
original list — the appended disabled entries are dropped by the decoder's
`allowed` filter and the double reversal restores the order. -/
theorem decode_encode_qualities (quality_definitions : List (String × QualityObj))
    (group_ids : List (String × Int)) (qualities : List QualityEntry)
    (href : ∀ e ∈ qualities, ∀ n ∈ entryNames e,
      ∃ q, quality_definitions.lookup n = some q ∧ q.name = n)
    (hgid : ∀ g, QualityEntry.group g ∈ qualities → (group_ids.lookup g.name).isSome)
    (hmem : ∀ g, QualityEntry.group g ∈ qualities → g.members ≠ [] ∧ g.members.Nodup) :
    ∃ items, _encode_qualities quality_definitions group_ids qualities = some items ∧
      _decode_qualities items = some qualities := by
  obtain ⟨p1, h1, h2, h3⟩ := encodeEnabled_roundtrip quality_definitions group_ids
    qualities href hgid hmem
  obtain ⟨p2, h4, h5⟩ := encodeDisabled_spec quality_definitions
    (qualities.flatMap entryNames) (quality_definitions.map Prod.fst) (fun n hn => hn)
  refine ⟨(p1 ++ p2).reverse, ?_, ?_⟩
  · rw [_encode_qualities]
    simp [h1, h4]
  · rw [_decode_qualities, List.reverse_reverse, List.filter_append,
      List.filter_eq_self.mpr (fun a ha => h2 a ha),
      List.filter_eq_nil_iff.mpr (fun a ha => by simp [h5 a ha]),
      List.append_nil]
    exact h3

end BuildarrSonarr

namespace BuildarrSonarr

/-! ## Claim C1 — qualities round-trip -/

/-- C1 counterexample: the claim's hypothesis only asks that every
referenced name exist as a key of the remote quality-definition catalog.
The catalog is keyed by definition *title*, and a title may differ from
the nested quality object's `name` — decoding then returns the nested
name, not the key that was looked up.  With the catalog `{"A" ↦ {id: 1,
name: "B"}}` and the single-entry profile `["A"]`, encode-then-decode
yields `["B"]`, not the original `["A"]`. -/
theorem c1_counterexample :
    (_encode_qualities [("A", ⟨1, "B"⟩)] [] [.bare "A"]).bind _decode_qualities =
        some [.bare "B"] ∧
      (_encode_qualities [("A", ⟨1, "B"⟩)] [] [.bare "A"]).bind _decode_qualities ≠
        some [.bare "A"] := by
  constructor
  · rfl
  · decide

/-- C1 (amended): decoding the result of encoding yields the original
ordered qualities list — same bare names and groups in the same order,
each group keeping its name and exact member set, and none of the appended
disabled entries surviving decode — provided every referenced name maps in
the catalog to a quality object *bearing that same name* (true whenever
definition titles equal quality names), every group has a synthesized id,
and each group's member set is non-empty (with the member list, the
canonical representative of the Python set, duplicate-free). -/
theorem c1_roundtrip_amended (quality_definitions : List (String × QualityObj))
    (group_ids : List (String × Int)) (qualities : List QualityEntry)
    (href : ∀ e ∈ qualities, ∀ n ∈ entryNames e,
      ∃ q, quality_definitions.lookup n = some q ∧ q.name = n)
    (hgid : ∀ g, QualityEntry.group g ∈ qualities → (group_ids.lookup g.name).isSome)
    (hmem : ∀ g, QualityEntry.group g ∈ qualities → g.members ≠ [] ∧ g.members.Nodup) :
    (_encode_qualities quality_definitions group_ids qualities).bind _decode_qualities =
      some qualities := by
  obtain ⟨items, h1, h2⟩ := decode_encode_qualities quality_definitions group_ids
    qualities href hgid hmem
  rw [h1]
  exact h2

/-- Witness for C1 (amended): a three-definition catalog, one group with
id 1001, and the profile `["A", {name: "G", members: ["B", "C"]}]`. -/
theorem c1_roundtrip_amended_witness :
    (∀ e ∈ [QualityEntry.bare "A", .group ⟨"G", ["B", "C"]⟩], ∀ n ∈ entryNames e,
      ∃ q, ([("A", (⟨1, "A"⟩ : QualityObj)), ("B", ⟨2, "B"⟩),
        ("C", ⟨3, "C"⟩)]).lookup n = some q ∧ q.name = n) ∧
      (_encode_qualities [("A", ⟨1, "A"⟩), ("B", ⟨2, "B"⟩), ("C", ⟨3, "C"⟩)]
          [("G", 1001)] [.bare "A", .group ⟨"G", ["B", "C"]⟩]).bind _decode_qualities =
        some [.bare "A", .group ⟨"G", ["B", "C"]⟩] :=
  ⟨by decide,
   c1_roundtrip_amended [("A", ⟨1, "A"⟩), ("B", ⟨2, "B"⟩), ("C", ⟨3, "C"⟩)]
     [("G", 1001)] [.bare "A", .group ⟨"G", ["B", "C"]⟩]
     (by decide)
     (by intro g hg; simp at hg; subst hg; decide)
     (by intro g hg; simp at hg; subst hg; decide)⟩

end BuildarrSonarr

namespace BuildarrSonarr

/-! ## Properties of the synthesized group ids -/

/-- The group names of a qualities list, in order of appearance. -/
def groupNames (qualities : List QualityEntry) : List String :=
  qualities.filterMap (fun e => match e with
    | .group g => some g.name
    | .bare _ => none)

/-- The synthesized id table is keyed by exactly the group names. -/
theorem mkGroupIdsAux_keys (i : Nat) (qualities : List QualityEntry) :
    (mkGroupIdsAux i qualities).map Prod.fst = groupNames qualities := by
  induction qualities generalizing i with
  | nil => rfl
  | cons e rest ih =>
    cases e with
    | group g => simp [mkGroupIdsAux, groupNames, List.filterMap_cons, ih]
    | bare n => simp [mkGroupIdsAux, groupNames, List.filterMap_cons, ih (i := i)]

/-- Every synthesized id is at least `1000 + (i + 1)`. -/
theorem mkGroupIdsAux_ge (i : Nat) (qualities : List QualityEntry) :
    ∀ e ∈ mkGroupIdsAux i qualities, (1000 : Int) + (i + 1) ≤ e.2 := by
  induction qualities generalizing i with
  | nil => simp [mkGroupIdsAux]
  | cons e rest ih =>
    cases e with
    | group g =>
      intro x hx
      rw [mkGroupIdsAux] at hx
      rcases List.mem_cons.mp hx with h | h
      · simp [h]
      · have h1 := ih (i + 1) x h
        push_cast at h1 ⊢
        linarith
    | bare n => exact ih i

/-- The synthesized ids are pairwise distinct. -/
theorem mkGroupIdsAux_snd_nodup (i : Nat) (qualities : List QualityEntry) :
    ((mkGroupIdsAux i qualities).map Prod.snd).Nodup := by
  induction qualities generalizing i with
  | nil => simp [mkGroupIdsAux]
  | cons e rest ih =>
    cases e with
    | group g =>
      simp only [mkGroupIdsAux, List.map_cons, List.nodup_cons]
      refine ⟨fun hmem => ?_, ih (i + 1)⟩
      obtain ⟨x, hx, hxv⟩ := List.mem_map.mp hmem
      have := mkGroupIdsAux_ge (i + 1) rest x hx
      rw [hxv] at this
      push_cast at this
      linarith
    | bare n => exact ih i

/-- A successful association-list lookup returns a member pair. -/
theorem mem_of_lookup_eq_some {β : Type} (l : List (String × β)) (n : String)
    (v : β) (h : l.lookup n = some v) : (n, v) ∈ l := by
  induction l with
  | nil => cases h
  | cons p rest ih =>
    obtain ⟨k, b⟩ := p
    by_cases hk : n = k
    · subst hk
      rw [List.lookup_cons_self] at h
      cases h
      exact List.mem_cons_self _ _
    · have hb : (n == k) = false := beq_eq_false_iff_ne.mpr hk
      rw [List.lookup, hb] at h
      exact List.mem_cons_of_mem _ (ih h)

/-- Distinct groups never share a synthesized id: the id determines the
group name. -/
theorem mkGroupIds_id_inj (qualities : List QualityEntry)
    (n₁ n₂ : String) (v : Int)
    (h₁ : (n₁, v) ∈ mkGroupIds qualities) (h₂ : (n₂, v) ∈ mkGroupIds qualities) :
    n₁ = n₂ := by
  have hinj := List.inj_on_of_nodup_map (f := Prod.snd)
    (mkGroupIdsAux_snd_nodup 0 qualities)
  have heq := hinj h₁ h₂ rfl
  exact congrArg Prod.fst heq

/-- Every synthesized id is at least 1001. -/
theorem mkGroupIds_ge (qualities : List QualityEntry) :
    ∀ e ∈ mkGroupIds qualities, (1001 : Int) ≤ e.2 := by
  intro e he
  have := mkGroupIdsAux_ge 0 qualities e he
  push_cast at this
  linarith

/-- The id table has an entry for every group of the list. -/
theorem mkGroupIds_lookup_isSome (qualities : List QualityEntry) (g : QualityGroup)
    (h : QualityEntry.group g ∈ qualities) :
    ((mkGroupIds qualities).lookup g.name).isSome := by
  apply lookup_isSome_of_mem_keys
  rw [mkGroupIds, mkGroupIdsAux_keys]
  exact List.mem_filterMap.mpr ⟨QualityEntry.group g, h, rfl⟩

/-- Conversely, a resolvable name is one of the group names. -/
theorem mkGroupIds_lookup_none_of_not_group (qualities : List QualityEntry)
    (t : String) (h : t ∉ groupNames qualities) :
    (mkGroupIds qualities).lookup t = none := by
  apply (lookup_eq_none_iff _ _).mpr
  rw [mkGroupIds, mkGroupIdsAux_keys]
  exact h

end BuildarrSonarr

namespace BuildarrSonarr

/-! ## Inversion of a successful profile construction -/

/-- Inversion of `validate_upgrade_until` with upgrades enabled: the input
must be a name enabled in `qualities` and is returned as-is. -/
theorem validate_upgrade_until_true_inv (uu : Option String)
    (qs : List QualityEntry) (r : Option String)
    (h : validate_upgrade_until uu (some true) (some qs) = .ok r) :
    ∃ u, uu = some u ∧ r = some u ∧ qs.any (fun q => u = entryName q) = true := by
  cases uu with
  | none => exact absurd h (by simp [validate_upgrade_until])
  | some u =>
    by_cases hany : qs.any (fun q => u = entryName q)
    · refine ⟨u, rfl, ?_, hany⟩
      have hval : validate_upgrade_until (some u) (some true) (some qs) =
          .ok (some u) := by
        simp [validate_upgrade_until, hany]
      rw [hval] at h
      cases h
      rfl
    · exact absurd h (by simp [validate_upgrade_until, hany])

/-- Inversion of `validate_upgrade_until` with upgrades disabled: the
result is forced to `none`. -/
theorem validate_upgrade_until_false_inv (uu : Option String)
    (qs : List QualityEntry) (r : Option String)
    (h : validate_upgrade_until uu (some false) (some qs) = .ok r) : r = none := by
  have hval : validate_upgrade_until uu (some false) (some qs) = .ok none := rfl
  rw [hval] at h
  cases h
  rfl

/-- Inversion of `validate_upgrade_until_custom_format_score` with the
minimum present: the check passed and the value is returned unchanged. -/
theorem validate_uucfs_inv (b a uucfs : Int)
    (h : validate_upgrade_until_custom_format_score b (some a) = .ok uucfs) :
    ¬(b < a) ∧ uucfs = b := by
  rw [validate_upgrade_until_custom_format_score] at h
  by_cases h2 : b < a
  · rw [if_pos h2] at h; cases h
  · rw [if_neg h2] at h
    cases h
    exact ⟨h2, rfl⟩

/-- Inversion of a successful `mkProfile`: the constructed profile's fields
are the validated inputs, and each stage of the validation chain
succeeded. -/
theorem mkProfile_ok_inv (ua : Bool) (qs : List QualityEntry)
    (a b c : Int) (cfs : List CustomFormatScore) (uu : Option String)
    (p : QualityProfile) (h : mkProfile ua qs a b c cfs uu = .ok p) :
    p.upgrades_allowed = ua ∧ p.qualities = qs ∧
      p.minimum_custom_format_score = a ∧
      p.upgrade_until_custom_format_score = b ∧
      p.minimum_custom_format_score_increment = c ∧
      qs.isEmpty = false ∧
      (qs.any (fun q => match q with
        | .group g => g.members.isEmpty
        | .bare _ => false)) = false ∧
      validate_qualities qs = .ok qs ∧
      ¬(b < a) ∧ ¬(c < 1) ∧
      validate_custom_format cfs = .ok p.custom_formats ∧
      validate_upgrade_until uu (some ua) (some qs) = .ok p.upgrade_until := by
  rw [mkProfile] at h
  split at h
  · cases h
  next h0 =>
  split at h
  · cases h
  next h1 =>
  split at h
  · cases h
  next qs' hq =>
  split at h
  · cases h
  next uucfs huucfs =>
  split at h
  · cases h
  next h3 =>
  split at h
  · cases h
  next cfs' hcf =>
  split at h
  · cases h
  next uu' huu =>
  cases h
  obtain ⟨rfl, -⟩ := validate_qualities_ok_inv qs qs' hq
  obtain ⟨h2, rfl⟩ := validate_uucfs_inv b a uucfs huucfs
  exact ⟨rfl, rfl, rfl, rfl, rfl, Bool.not_eq_true _ ▸ h0,
    Bool.not_eq_true _ ▸ h1, hq, h2, h3, hcf, huu⟩

end BuildarrSonarr

namespace BuildarrSonarr

/-! ## Round-trip of the custom-format encode/decode pair -/

/-- If every local score is a nonzero integer, the names all resolve, and
the local list is already in the decoder's sort order, then decoding the
encoded `formatItems` restores the local list exactly: the appended
zero-score entries are filtered out and the stable sort leaves the already
sorted list unchanged. -/
theorem cf_roundtrip (api_customformats : List (String × Int))
    (cfs : List CustomFormatScore)
    (hall : ∀ c ∈ cfs, ∃ s, c.score = some s ∧ s ≠ 0)
    (hsub : ∀ c ∈ cfs, (api_customformats.lookup c.name).isSome)
    (hsorted : cfs.Pairwise (fun x y => cfsKeyLE x y = true)) :
    ∃ fis, _custom_formats_encoder api_customformats cfs = some fis ∧
      _custom_formats_decoder fis = some cfs := by
  refine ⟨expectedCustomFormatItems api_customformats cfs, ?_, ?_⟩
  · rw [_custom_formats_encoder,
      encodeCustomFormatScores_ok api_customformats cfs hsub]
    rfl
  · set locals := cfs.map (fun c =>
      (⟨(api_customformats.lookup c.name).getD 0, c.name, c.score⟩ : FormatItem))
      with hlocals
    set extras := (api_customformats.filter
      (fun e => !((cfs.map (·.name)).contains e.1))).map
      (fun e => (⟨e.2, e.1, some 0⟩ : FormatItem)) with hextras
    have hfilter : (locals ++ extras).filter (fun fi => fi.score != some 0) =
        locals := by
      rw [List.filter_append]
      have h1 : locals.filter (fun fi => fi.score != some 0) = locals := by
        apply List.filter_eq_self.mpr
        intro fi hfi
        obtain ⟨c, hc, rfl⟩ := List.mem_map.mp (hlocals ▸ hfi)
        obtain ⟨s, hs, hs0⟩ := hall c hc
        simp [hs, hs0]
      have h2 : extras.filter (fun fi => fi.score != some 0) = [] := by
        apply List.filter_eq_nil_iff.mpr
        intro fi hfi
        obtain ⟨e, he, rfl⟩ := List.mem_map.mp (hextras ▸ hfi)
        simp
      rw [h1, h2, List.append_nil]
    have hback : locals.map (fun fi => CustomFormatScore.mk fi.name fi.score) =
        cfs := by
      rw [hlocals, List.map_map]
      have hid : ((fun fi => CustomFormatScore.mk fi.name fi.score) ∘ fun c =>
          (⟨(api_customformats.lookup c.name).getD 0, c.name, c.score⟩ : FormatItem)) =
          id := rfl
      rw [hid, List.map_id]
    rw [_custom_formats_decoder, expectedCustomFormatItems, hfilter, hback]
    have hallb : cfs.all (fun c => c.score.isSome) = true := by
      apply List.all_eq_true.mpr
      intro c hc
      obtain ⟨s, hs, -⟩ := hall c hc
      simp [hs]
    rw [if_pos hallb, List.mergeSort_of_sorted hsorted]

end BuildarrSonarr

namespace BuildarrSonarr

/-! ## Shape of the encoded items, for the cutoff analysis -/

/-- Weak success of the member loop: resolvable members encode. -/
theorem encodeMembers_isSome (quality_definitions : List (String × QualityObj))
    (members : List String)
    (h : ∀ m ∈ members, (quality_definitions.lookup m).isSome) :
    ∃ rqs, encodeMembers quality_definitions members = some rqs := by
  induction members with
  | nil => exact ⟨[], rfl⟩
  | cons m rest ih =>
    obtain ⟨q, hq⟩ := Option.isSome_iff_exists.mp (h m (by simp))
    obtain ⟨rqs, hrqs⟩ := ih (fun x hx => h x (by simp [hx]))
    refine ⟨⟨some q, true⟩ :: rqs, ?_⟩
    rw [encodeMembers]
    simp [_encode_quality_str, hq, hrqs]

/-- The first encoding loop relates each entry to its item: a group's item
carries the synthesized id and the group name, a bare entry's item carries
no id and the looked-up quality object. -/
theorem encodeEnabled_forall2 (quality_definitions : List (String × QualityObj))
    (group_ids : List (String × Int)) (qualities : List QualityEntry)
    (href : ∀ e ∈ qualities, ∀ n ∈ entryNames e, (quality_definitions.lookup n).isSome)
    (hgid : ∀ g, QualityEntry.group g ∈ qualities → (group_ids.lookup g.name).isSome) :
    ∃ p1, encodeEnabled quality_definitions group_ids qualities = some p1 ∧
      List.Forall₂ (fun e it =>
        (∀ g, e = QualityEntry.group g →
          it.id? = group_ids.lookup g.name ∧ it.name? = some g.name) ∧
        (∀ n, e = QualityEntry.bare n →
          it.id? = none ∧ it.quality? = quality_definitions.lookup n)) qualities p1 := by
  induction qualities with
  | nil => exact ⟨[], rfl, List.Forall₂.nil⟩
  | cons e rest ih =>
    obtain ⟨p1, hp1, hrel⟩ := ih (fun x hx => href x (by simp [hx]))
      (fun g hg => hgid g (by simp [hg]))
    cases e with
    | bare n =>
      obtain ⟨q, hq⟩ := Option.isSome_iff_exists.mp
        (href (.bare n) (by simp) n (by simp [entryNames]))
      refine ⟨⟨none, none, some q, true, []⟩ :: p1, ?_, ?_⟩
      · rw [encodeEnabled]
        simp [encodeEntry, _encode_quality_str, hq, hp1, liftQuality]
      · refine List.Forall₂.cons ?_ hrel
        constructor
        · intro g hg
          cases hg
        · intro m hm
          cases hm
          exact ⟨rfl, hq.symm⟩
    | group g =>
      obtain ⟨gid, hgidv⟩ := Option.isSome_iff_exists.mp (hgid g (by simp))
      obtain ⟨rqs, hrqs⟩ := encodeMembers_isSome quality_definitions g.members
        (fun m hm => href (.group g) (by simp) m (by simpa [entryNames] using hm))
      refine ⟨⟨some gid, some g.name, none, true, rqs⟩ :: p1, ?_, ?_⟩
      · rw [encodeEnabled]
        simp [encodeEntry, hgidv, QualityGroup.encode, hrqs, hp1]
      · refine List.Forall₂.cons ?_ hrel
        constructor
        · intro g' hg'
          cases hg'
          exact ⟨hgidv.symm, rfl⟩
        · intro m hm
          cases hm

/-- Every item of the second encoding loop is a disabled bare item whose
quality object is a lookup result. -/
theorem encodeDisabled_shape (quality_definitions : List (String × QualityObj))
    (enabled_qualities : List String) (names : List String)
    (p2 : List RemoteItem)
    (h : encodeDisabled quality_definitions enabled_qualities names = some p2) :
    ∀ it ∈ p2, ∃ n q, quality_definitions.lookup n = some q ∧
      it.id? = none ∧ it.quality? = some q := by
  induction names generalizing p2 with
  | nil =>
    cases h
    simp
  | cons n rest ih =>
    rw [encodeDisabled] at h
    by_cases hc : enabled_qualities.contains n
    · rw [if_pos hc] at h
      exact ih p2 h
    · rw [if_neg hc] at h
      cases hlk : quality_definitions.lookup n with
      | none => rw [_encode_quality_str, hlk] at h; cases h
      | some q =>
        cases hrest : encodeDisabled quality_definitions enabled_qualities rest with
        | none =>
          rw [_encode_quality_str, hlk, hrest] at h
          cases h
        | some p2' =>
          rw [_encode_quality_str, hlk, hrest] at h
          cases h
          intro it hit
          rcases List.mem_cons.mp hit with h1 | h1
          · exact ⟨n, q, hlk, by simp [h1, liftQuality]⟩
          · exact ih p2' hrest it h1

/-- If every step of the loop either continues or exits with the same
result `r`, and some step exits with `r`, the whole scan exits with `r`. -/
theorem cutoffScan_unique (cutoff : Int) (l : List RemoteItem)
    (r : Except String String)
    (h1 : ∀ it ∈ l, cutoffStep cutoff it = none ∨ cutoffStep cutoff it = some r)
    (h2 : ∃ it ∈ l, cutoffStep cutoff it = some r) :
    cutoffScan cutoff l = some r := by
  induction l with
  | nil => obtain ⟨it, hmem, -⟩ := h2; cases hmem
  | cons it rest ih =>
    rw [cutoffScan]
    rcases h1 it (by simp) with hstep | hstep
    · rw [hstep]
      refine ih (fun x hx => h1 x (by simp [hx])) ?_
      obtain ⟨x, hx, hxr⟩ := h2
      rcases List.mem_cons.mp hx with h3 | h3
      · rw [h3] at hxr
        rw [hxr] at hstep
        cases hstep
      · exact ⟨x, h3, hxr⟩
    · rw [hstep]

/-- A `Forall₂` witness for an element of the right list. -/
theorem forall2_exists_of_mem_right {α β : Type} {r : α → β → Prop}
    {as : List α} {bs : List β} (h : List.Forall₂ r as bs) (b : β) (hb : b ∈ bs) :
    ∃ a ∈ as, r a b := by
  induction h with
  | nil => cases hb
  | cons hr hrest ih =>
    rcases List.mem_cons.mp hb with h1 | h1
    · exact ⟨_, by simp, h1 ▸ hr⟩
    · obtain ⟨a, ha, hra⟩ := ih h1
      exact ⟨a, by simp [ha], hra⟩

/-- A `Forall₂` witness for an element of the left list. -/
theorem forall2_exists_of_mem_left {α β : Type} {r : α → β → Prop}
    {as : List α} {bs : List β} (h : List.Forall₂ r as bs) (a : α) (ha : a ∈ as) :
    ∃ b ∈ bs, r a b := by
  induction h with
  | nil => cases ha
  | cons hr hrest ih =>
    rcases List.mem_cons.mp ha with h1 | h1
    · exact ⟨_, by simp, h1 ▸ hr⟩
    · obtain ⟨b, hb, hrb⟩ := ih h1
      exact ⟨b, by simp [hb], hrb⟩

end BuildarrSonarr

namespace BuildarrSonarr

/-! ## The cutoff round-trip -/

/-- A bare-shaped item (no `id` key, quality object looked up from the
catalog) either does not match the cutoff, or decodes to the target name:
when the target is a group, its synthesized id (≥ 1001) cannot collide
with a catalog id (< 1000); when the target is a bare name, distinct
catalog ids force the item to be the target's own entry. -/
theorem cutoffStep_bare_item (quality_definitions : List (String × QualityObj))
    (qualities : List QualityEntry) (t : String) (cid : Int)
    (it : RemoteItem) (n : String) (q : QualityObj)
    (hids : (quality_definitions.map (fun e => e.2.id)).Nodup)
    (hlow : ∀ e ∈ quality_definitions, e.2.id < 1000)
    (hid : it.id? = none) (hqual : it.quality? = some q)
    (hlk : quality_definitions.lookup n = some q)
    (htarget :
      ((mkGroupIds qualities).lookup t = some cid ∧
        ∃ g, QualityEntry.group g ∈ qualities ∧ g.name = t) ∨
      (QualityEntry.bare t ∈ qualities ∧
        ∃ qt, quality_definitions.lookup t = some qt ∧ qt.name = t ∧ cid = qt.id)) :
    cutoffStep cid it = none ∨ cutoffStep cid it = some (.ok t) := by
  have hqmem : (n, q) ∈ quality_definitions := mem_of_lookup_eq_some _ _ _ hlk
  by_cases heq : q.id = cid
  · right
    rcases htarget with ⟨hlkt, -⟩ | ⟨-, qt, hqt, hqtn, hcid⟩
    · exfalso
      have hge := mkGroupIds_ge qualities (t, cid) (mem_of_lookup_eq_some _ _ _ hlkt)
      have hlt := hlow (n, q) hqmem
      simp only at hge hlt
      omega
    · have hqtmem : (t, qt) ∈ quality_definitions := mem_of_lookup_eq_some _ _ _ hqt
      have hpair : (n, q) = (t, qt) :=
        List.inj_on_of_nodup_map (f := fun e => e.2.id) hids hqmem hqtmem
          (by simp [heq, hcid])
      have hqeq : q = qt := congrArg Prod.snd hpair
      simp [cutoffStep, hid, hqual, heq, hqeq, hqtn, hcid]
  · left
    simp [cutoffStep, hid, hqual, heq]

/-- Decoding the encoded items at the target's id returns the target name:
the scan result is unique across enabled groups, enabled bare entries and
the appended disabled entries. -/
theorem cutoff_decode_target (quality_definitions : List (String × QualityObj))
    (qualities : List QualityEntry) (p1 p2 : List RemoteItem) (t : String) (cid : Int)
    (hids : (quality_definitions.map (fun e => e.2.id)).Nodup)
    (hlow : ∀ e ∈ quality_definitions, e.2.id < 1000)
    (href : ∀ e ∈ qualities, ∀ n ∈ entryNames e,
      (quality_definitions.lookup n).isSome)
    (hrel : List.Forall₂ (fun e it =>
      (∀ g, e = QualityEntry.group g →
        it.id? = (mkGroupIds qualities).lookup g.name ∧ it.name? = some g.name) ∧
      (∀ n, e = QualityEntry.bare n →
        it.id? = none ∧ it.quality? = quality_definitions.lookup n)) qualities p1)
    (hp2 : ∀ it ∈ p2, ∃ n q, quality_definitions.lookup n = some q ∧
      it.id? = none ∧ it.quality? = some q)
    (htarget :
      ((mkGroupIds qualities).lookup t = some cid ∧
        ∃ g, QualityEntry.group g ∈ qualities ∧ g.name = t) ∨
      (QualityEntry.bare t ∈ qualities ∧
        ∃ qt, quality_definitions.lookup t = some qt ∧ qt.name = t ∧ cid = qt.id)) :
    _upgrade_until_decoder ((p1 ++ p2).reverse) cid = .ok t := by
  have hscan : cutoffScan cid ((p1 ++ p2).reverse) = some (.ok t) := by
    apply cutoffScan_unique
    · intro it hit
      rw [List.mem_reverse, List.mem_append] at hit
      rcases hit with hit | hit
      · obtain ⟨e, he, hrel_e⟩ := forall2_exists_of_mem_right hrel it hit
        cases e with
        | group g =>
          obtain ⟨hidg, hnameg⟩ := hrel_e.1 g rfl
          obtain ⟨gidg, hgidg⟩ := Option.isSome_iff_exists.mp
            (mkGroupIds_lookup_isSome qualities g he)
          rw [hgidg] at hidg
          by_cases heq : gidg = cid
          · right
            rcases htarget with ⟨hlkt, -⟩ | ⟨-, qt, hqt, hqtn, hcid⟩
            · have hnamet : g.name = t :=
                mkGroupIds_id_inj qualities g.name t cid
                  (heq ▸ mem_of_lookup_eq_some _ _ _ hgidg)
                  (mem_of_lookup_eq_some _ _ _ hlkt)
              simp [cutoffStep, hidg, heq, hnameg, hnamet]
            · exfalso
              have hge := mkGroupIds_ge qualities (g.name, gidg)
                (mem_of_lookup_eq_some _ _ _ hgidg)
              have hlt := hlow (t, qt) (mem_of_lookup_eq_some _ _ _ hqt)
              simp only at hge hlt
              omega
          · left
            simp [cutoffStep, hidg, heq]
        | bare n =>
          obtain ⟨hidn, hqualn⟩ := hrel_e.2 n rfl
          obtain ⟨q, hq⟩ := Option.isSome_iff_exists.mp
            (href _ he n (by simp [entryNames]))
          rw [hq] at hqualn
          exact cutoffStep_bare_item quality_definitions qualities t cid it n q
            hids hlow hidn hqualn hq htarget
      · obtain ⟨n, q, hlk, hidn, hqualn⟩ := hp2 it hit
        exact cutoffStep_bare_item quality_definitions qualities t cid it n q
          hids hlow hidn hqualn hlk htarget
    · rcases htarget with ⟨hlkt, g, hg, hgname⟩ | ⟨hbare, qt, hqt, hqtn, hcid⟩
      · obtain ⟨it, hitmem, hrel_it⟩ := forall2_exists_of_mem_left hrel _ hg
        obtain ⟨hidg, hnameg⟩ := hrel_it.1 g rfl
        refine ⟨it, by rw [List.mem_reverse, List.mem_append]; exact Or.inl hitmem, ?_⟩
        rw [hgname, hlkt] at hidg
        simp [cutoffStep, hidg, hnameg, hgname]
      · obtain ⟨it, hitmem, hrel_it⟩ := forall2_exists_of_mem_left hrel _ hbare
        obtain ⟨hidn, hqualn⟩ := hrel_it.2 t rfl
        refine ⟨it, by rw [List.mem_reverse, List.mem_append]; exact Or.inl hitmem, ?_⟩
        rw [hqt] at hqualn
        simp [cutoffStep, hidn, hqualn, hcid.symm, hqtn]
  rw [_upgrade_until_decoder, hscan]

end BuildarrSonarr

namespace BuildarrSonarr

/-- Membership in the group-name list. -/
theorem mem_groupNames_iff (qualities : List QualityEntry) (u : String) :
    u ∈ groupNames qualities ↔
      ∃ g, QualityEntry.group g ∈ qualities ∧ g.name = u := by
  rw [groupNames, List.mem_filterMap]
  constructor
  · rintro ⟨e, he, hm⟩
    cases e with
    | bare n => cases hm
    | group g => exact ⟨g, he, Option.some.inj hm⟩
  · rintro ⟨g, hg, rfl⟩
    exact ⟨.group g, hg, rfl⟩

/-! ## Claim C2 — idempotence of the second reconciliation run -/

/-- C2 (amended): the second reconciliation run performs no PUT provided —
beyond the profile's own validity (`mkProfile` fixpoint) — the catalog ids
are distinct and below the synthetic group-id range, every referenced name
maps to a quality object bearing that name, each group's member list is
duplicate-free, every local custom-format score resolves to a nonzero
integer score, and the local custom-format list is already in the
decoder's order (descending score, then ascending name).  Without the
sortedness/nonzero conditions the decoded list differs from the local one
and a PUT is issued every run (see the counterexample). -/
theorem c2_idempotent_amended
    (quality_definitions : List (String × QualityObj))
    (api_customformats : List (String × Int)) (p : QualityProfile)
    (hvalid : mkProfile p.upgrades_allowed p.qualities p.minimum_custom_format_score
      p.upgrade_until_custom_format_score p.minimum_custom_format_score_increment
      p.custom_formats p.upgrade_until = .ok p)
    (hids : (quality_definitions.map (fun e => e.2.id)).Nodup)
    (hlow : ∀ e ∈ quality_definitions, e.2.id < 1000)
    (href : ∀ e ∈ p.qualities, ∀ n ∈ entryNames e,
      ∃ q, quality_definitions.lookup n = some q ∧ q.name = n)
    (hmem : ∀ g, QualityEntry.group g ∈ p.qualities → g.members.Nodup)
    (hcfsub : ∀ c ∈ p.custom_formats, (api_customformats.lookup c.name).isSome)
    (hcfscore : ∀ c ∈ p.custom_formats, ∃ s, c.score = some s ∧ s ≠ 0)
    (hcfsorted : p.custom_formats.Pairwise (fun x y => cfsKeyLE x y = true)) :
    secondRunChanged quality_definitions api_customformats p = some false := by
  obtain ⟨-, -, -, -, -, hne, hmemne, hvq, hba, hc1, hvcf, hvuu⟩ :=
    mkProfile_ok_inv _ _ _ _ _ _ _ _ hvalid
  have hmemne' : ∀ g, QualityEntry.group g ∈ p.qualities → g.members ≠ [] := by
    intro g hg hnil
    have h := List.any_eq_false.mp hmemne _ hg
    simp [hnil] at h
  have hgid : ∀ g, QualityEntry.group g ∈ p.qualities →
      (((mkGroupIds p.qualities)).lookup g.name).isSome :=
    fun g hg => mkGroupIds_lookup_isSome p.qualities g hg
  have hrefweak : ∀ e ∈ p.qualities, ∀ n ∈ entryNames e,
      (quality_definitions.lookup n).isSome := by
    intro e he n hn
    obtain ⟨q, hq, -⟩ := href e he n hn
    simp [hq]
  -- the enabled items: round-trip and shape
  obtain ⟨p1, hp1, hall1, hdec1⟩ := encodeEnabled_roundtrip quality_definitions
    (mkGroupIds p.qualities) p.qualities href hgid
    (fun g hg => ⟨hmemne' g hg, hmem g hg⟩)
  obtain ⟨p1', hp1', hrel⟩ := encodeEnabled_forall2 quality_definitions
    (mkGroupIds p.qualities) p.qualities hrefweak hgid
  have hp1eq : p1' = p1 := Option.some.inj (hp1'.symm.trans hp1)
  rw [hp1eq] at hrel
  -- the disabled items
  obtain ⟨p2, hp2, hall2⟩ := encodeDisabled_spec quality_definitions
    (p.qualities.flatMap entryNames) (quality_definitions.map Prod.fst)
    (fun n hn => hn)
  have hp2shape := encodeDisabled_shape quality_definitions
    (p.qualities.flatMap entryNames) (quality_definitions.map Prod.fst) p2 hp2
  have henc : _encode_qualities quality_definitions (mkGroupIds p.qualities)
      p.qualities = some ((p1 ++ p2).reverse) := by
    rw [_encode_qualities]
    simp [hp1, hp2]
  have hdec : _decode_qualities ((p1 ++ p2).reverse) = some p.qualities := by
    rw [_decode_qualities, List.reverse_reverse, List.filter_append,
      List.filter_eq_self.mpr hall1,
      List.filter_eq_nil_iff.mpr (fun a ha => by simp [hall2 a ha]),
      List.append_nil]
    exact hdec1
  -- the custom formats
  obtain ⟨fis, hfis, hdecf⟩ := cf_roundtrip api_customformats p.custom_formats
    hcfscore hcfsub hcfsorted
  -- the cutoff
  have hexists : ∃ cid t,
      _upgrade_until_encoder quality_definitions (mkGroupIds p.qualities)
        p.qualities p.upgrade_until = some cid ∧
      (((mkGroupIds p.qualities).lookup t = some cid ∧
        ∃ g, QualityEntry.group g ∈ p.qualities ∧ g.name = t) ∨
       (QualityEntry.bare t ∈ p.qualities ∧
        ∃ qt, quality_definitions.lookup t = some qt ∧ qt.name = t ∧ cid = qt.id)) ∧
      validate_upgrade_until (some t) (some p.upgrades_allowed) (some p.qualities) =
        .ok p.upgrade_until := by
    cases hua : p.upgrades_allowed with
    | true =>
      rw [hua] at hvuu
      obtain ⟨u, huueq, hpuu, hany⟩ := validate_upgrade_until_true_inv _ _ _ hvuu
      cases hl : (mkGroupIds p.qualities).lookup u with
      | some gid =>
        refine ⟨gid, u, ?_, Or.inl ⟨hl, ?_⟩, ?_⟩
        · simp [_upgrade_until_encoder, huueq, hl]
        · refine (mem_groupNames_iff _ _).mp ?_
          have hmemk := mem_keys_of_lookup_isSome (mkGroupIds p.qualities) u
            (by simp [hl])
          rwa [mkGroupIds, mkGroupIdsAux_keys] at hmemk
        · rw [hpuu]
          simp [validate_upgrade_until, hany]
      | none =>
        have hub : QualityEntry.bare u ∈ p.qualities := by
          obtain ⟨e, he, heq⟩ := List.any_eq_true.mp hany
          have heq' : u = entryName e := of_decide_eq_true heq
          cases e with
          | bare n => exact heq' ▸ he
          | group g =>
            exfalso
            have : ((mkGroupIds p.qualities).lookup g.name).isSome :=
              mkGroupIds_lookup_isSome p.qualities g he
            rw [show g.name = u from (heq' ▸ rfl : u = g.name).symm, hl] at this
            cases this
        obtain ⟨qt, hqt, hqtn⟩ := href _ hub u (by simp [entryNames])
        refine ⟨qt.id, u, ?_, Or.inr ⟨hub, qt, hqt, hqtn, rfl⟩, ?_⟩
        · simp [_upgrade_until_encoder, huueq, hl, hqt]
        · rw [hpuu]
          simp [validate_upgrade_until, hany]
    | false =>
      rw [hua] at hvuu
      have hpuu := validate_upgrade_until_false_inv _ _ _ hvuu
      obtain ⟨q0, rest, hqs⟩ : ∃ q0 rest, p.qualities = q0 :: rest := by
        cases hq0 : p.qualities with
        | nil =>
          rw [hq0] at hne
          simp at hne
        | cons a l => exact ⟨a, l, rfl⟩
      cases q0 with
      | group g0 =>
        have hg0 : QualityEntry.group g0 ∈ p.qualities := by
          rw [hqs]; simp
        obtain ⟨gid, hgid0⟩ := Option.isSome_iff_exists.mp
          (mkGroupIds_lookup_isSome p.qualities g0 hg0)
        refine ⟨gid, g0.name, ?_, Or.inl ⟨hgid0, g0, hg0, rfl⟩, ?_⟩
        · rw [hqs] at hgid0
          simp [_upgrade_until_encoder, hpuu, hqs, hgid0]
        · rw [hpuu]
          simp [validate_upgrade_until]
      | bare n0 =>
        have hb0 : QualityEntry.bare n0 ∈ p.qualities := by
          rw [hqs]; simp
        obtain ⟨qt, hqt, hqtn⟩ := href _ hb0 n0 (by simp [entryNames])
        refine ⟨qt.id, n0, ?_, Or.inr ⟨hb0, qt, hqt, hqtn, rfl⟩, ?_⟩
        · simp [_upgrade_until_encoder, hpuu, hqs, hqt]
        · rw [hpuu]
          simp [validate_upgrade_until]
  obtain ⟨cid, t, hcidenc, htarget, hvuut⟩ := hexists
  have hcutdec := cutoff_decode_target quality_definitions p.qualities p1 p2 t cid
    hids hlow hrefweak hrel hp2shape htarget
  -- encode of the whole profile
  have hvuucfs : validate_upgrade_until_custom_format_score
      p.upgrade_until_custom_format_score (some p.minimum_custom_format_score) =
      .ok p.upgrade_until_custom_format_score := by
    rw [validate_upgrade_until_custom_format_score, if_neg hba]
  have hmk : mkProfile p.upgrades_allowed p.qualities p.minimum_custom_format_score
      p.upgrade_until_custom_format_score p.minimum_custom_format_score_increment
      p.custom_formats (some t) = .ok p := by
    rw [mkProfile]
    simp only [hne, Bool.false_eq_true, if_false, hmemne, hvq, hvuucfs, hvcf,
      hvuut, if_neg hc1]
  have hencp : encodeProfile quality_definitions api_customformats
      (mkGroupIds p.qualities) p = some
      ⟨p.minimum_custom_format_score, p.upgrade_until_custom_format_score,
        p.minimum_custom_format_score_increment, fis, p.upgrades_allowed,
        cid, (p1 ++ p2).reverse⟩ := by
    rw [encodeProfile]
    simp [hfis, hcidenc, henc]
  have hdecp : decodeProfile
      ⟨p.minimum_custom_format_score, p.upgrade_until_custom_format_score,
        p.minimum_custom_format_score_increment, fis, p.upgrades_allowed,
        cid, (p1 ++ p2).reverse⟩ = some p := by
    rw [decodeProfile]
    simp only [hdecf, Option.some_bind, hcutdec, Except.toOption, hdec, hmk]
    simp [hmk]
  have hfinal : (decodeProfile
      ⟨p.minimum_custom_format_score, p.upgrade_until_custom_format_score,
        p.minimum_custom_format_score_increment, fis, p.upgrades_allowed,
        cid, (p1 ++ p2).reverse⟩).bind
      (fun remoteInstance => some (updateRemotePuts p remoteInstance)) = some false := by
    rw [hdecp]
    simp [updateRemotePuts]
  rw [secondRunChanged, hencp]
  exact hfinal

end BuildarrSonarr

namespace BuildarrSonarr

/-- C2 counterexample: a valid profile whose custom-format scores are listed
in configuration order `b ↦ 1, a ↦ 2` (not the decoder's order).  The
remote state is exactly the result of applying the profile, yet the decoded
remote instance carries `custom_formats = [a ↦ 2, b ↦ 1]` (zero scores
filtered, sorted by descending score then ascending name) while the local
list keeps configuration order, so the field-by-field diff reports a change
and the second run performs a PUT. -/
theorem c2_counterexample :
    mkProfile false [.bare "A"] 0 0 1
        [⟨"b", some 1⟩, ⟨"a", some 2⟩] none =
      .ok ⟨false, [.bare "A"], 0, 0, 1,
        [⟨"b", some 1⟩, ⟨"a", some 2⟩], none⟩ ∧
      secondRunChanged [("A", ⟨1, "A"⟩)] [("b", 1), ("a", 2)]
        ⟨false, [.bare "A"], 0, 0, 1,
          [⟨"b", some 1⟩, ⟨"a", some 2⟩], none⟩ = some true := by
  refine ⟨rfl, ?_⟩
  have hsort : ([CustomFormatScore.mk "b" (some 1),
      CustomFormatScore.mk "a" (some 2)]).mergeSort cfsKeyLE =
      [CustomFormatScore.mk "a" (some 2), CustomFormatScore.mk "b" (some 1)] := by
    simp [List.mergeSort, cfsKeyLE]
  have hcfdec : _custom_formats_decoder
      [⟨1, "b", some 1⟩, ⟨2, "a", some 2⟩] =
      some [⟨"a", some 2⟩, ⟨"b", some 1⟩] := by
    rw [_custom_formats_decoder]
    simp only [List.filter, List.map]
    rw [hsort]
    rfl
  have hencp : encodeProfile [("A", ⟨1, "A"⟩)] [("b", 1), ("a", 2)]
      (mkGroupIds [.bare "A"])
      ⟨false, [.bare "A"], 0, 0, 1, [⟨"b", some 1⟩, ⟨"a", some 2⟩], none⟩ =
      some ⟨0, 0, 1, [⟨1, "b", some 1⟩, ⟨2, "a", some 2⟩], false, 1,
        [⟨none, none, some ⟨1, "A"⟩, true, []⟩]⟩ := rfl
  have hdecp : decodeProfile
      ⟨0, 0, 1, [⟨1, "b", some 1⟩, ⟨2, "a", some 2⟩], false, 1,
        [⟨none, none, some ⟨1, "A"⟩, true, []⟩]⟩ =
      some ⟨false, [.bare "A"], 0, 0, 1,
        [⟨"a", some 2⟩, ⟨"b", some 1⟩], none⟩ := by
    rw [decodeProfile]
    simp only [hcfdec, Option.some_bind]
    rfl
  have hstep : secondRunChanged [("A", ⟨1, "A"⟩)] [("b", 1), ("a", 2)]
      ⟨false, [.bare "A"], 0, 0, 1, [⟨"b", some 1⟩, ⟨"a", some 2⟩], none⟩ =
      (decodeProfile ⟨0, 0, 1, [⟨1, "b", some 1⟩, ⟨2, "a", some 2⟩], false, 1,
        [⟨none, none, some ⟨1, "A"⟩, true, []⟩]⟩).bind
        (fun remoteInstance => some (updateRemotePuts
          ⟨false, [.bare "A"], 0, 0, 1, [⟨"b", some 1⟩, ⟨"a", some 2⟩], none⟩
          remoteInstance)) := by
    rw [secondRunChanged, hencp]
    rfl
  rw [hstep, hdecp]
  rfl

/-- Witness for C2 (amended): a single-quality profile whose custom-format
list `b ↦ 2, a ↦ 1` is already in the decoder's order; the second run
reports no change. -/
theorem c2_idempotent_amended_witness :
    mkProfile false [.bare "A"] 0 0 1
        [⟨"b", some 2⟩, ⟨"a", some 1⟩] none =
      .ok ⟨false, [.bare "A"], 0, 0, 1,
        [⟨"b", some 2⟩, ⟨"a", some 1⟩], none⟩ ∧
      ([CustomFormatScore.mk "b" (some 2),
        CustomFormatScore.mk "a" (some 1)]).Pairwise (fun x y => cfsKeyLE x y = true) ∧
      secondRunChanged [("A", ⟨1, "A"⟩)] [("a", 1), ("b", 2)]
        ⟨false, [.bare "A"], 0, 0, 1,
          [⟨"b", some 2⟩, ⟨"a", some 1⟩], none⟩ = some false := by
  refine ⟨rfl, by decide, ?_⟩
  exact c2_idempotent_amended [("A", ⟨1, "A"⟩)] [("a", 1), ("b", 2)]
    ⟨false, [.bare "A"], 0, 0, 1, [⟨"b", some 2⟩, ⟨"a", some 1⟩], none⟩
    rfl
    (by decide)
    (by decide)
    (by
      intro e he n hn
      simp only [List.mem_singleton] at he
      subst he
      simp only [entryNames, List.mem_singleton] at hn
      subst hn
      exact ⟨⟨1, "A"⟩, rfl, rfl⟩)
    (by
      intro g hg
      simp at hg)
    (by decide)
    (by
      intro c hc
      simp only [List.mem_cons, List.not_mem_nil, or_false] at hc
      rcases hc with rfl | rfl
      · exact ⟨2, rfl, by decide⟩
      · exact ⟨1, rfl, by decide⟩)
    (by decide)

end BuildarrSonarr
